import Mathlib

/-!
Shallow embedding of `skiing_in_singapore.py`.

Python `Node` objects all live in the single arena `SkiMap.nodes`; an
object reference is modelled as the node's arena index (the node created
with index `i` is stored at position `i` and never moves).  Mutating
methods become state-passing functions.  The unbounded `while top_nodes:`
loop of `SkiMap._go_down` is modelled with explicit fuel (`propagate`);
exhausting the fuel — which corresponds to a non-terminating execution —
yields `none`, as does a raised exception elsewhere (`ValueError` from
`max(∅)`, `IndexError` from `paths[0]`).

`build_nodes` interleaves node creation with edge insertion, but a node
is always created before any edge touching it is inserted, and creating
a node neither reads nor writes any other node; so the build is embedded
as: allocate all nodes first (`initNodes`), then replay the edge
insertions in the exact order the Python scan produces them
(`buildEvents`, row-major: for each cell first the left comparison, then
the upward comparison).
-/

/-- Mirrors class `Node` (`skiing_in_singapore.py`, lines 7-17):
`go_down` / `go_up` hold arena indices of the referenced nodes. -/
structure Node where
  i : Nat
  x : Nat
  y : Nat
  elevation : Int
  go_down : List Nat
  go_up : List Nat
  longest_path : Nat
deriving DecidableEq

def dNode : Node := ⟨0, 0, 0, 0, [], [], 0⟩

/-- Dereference an arena index (always in range in every real run). -/
def getN (ns : List Node) (k : Nat) : Node := ns.getD k dNode

/-- Mutate the node stored at index `k`. -/
def modifyN (ns : List Node) (k : Nat) (f : Node → Node) : List Node :=
  ns.set k (f (getN ns k))

/-- Mirrors class `SkiMap` (lines 20-31); `rows` is passed separately. -/
structure SkiMap where
  width : Nat
  height : Nat
  nodes : List Node
  summits : Finset Nat
deriving DecidableEq

/-- One round of the ancestor-propagation loop body (lines 93-96):
each frontier node gets `longest_path := max longest_path v` and its
`go_up` list is appended to the next frontier. -/
def propRound (ns : List Node) (top : List Nat) (v : Nat) : List Node × List Nat :=
  top.foldl (fun acc j =>
    let ns' := modifyN acc.1 j (fun n => { n with longest_path := max n.longest_path v })
    (ns', acc.2 ++ (getN ns' j).go_up)) (ns, [])

/-- The `while top_nodes:` loop of `_go_down` (lines 92-98), with fuel. -/
def propagate : List Node → List Nat → Nat → Nat → Nat → Option (List Node)
  | ns, [], _, _, _ => some ns
  | _, _ :: _, _, _, 0 => none
  | ns, j :: top, nlp, level, fuel + 1 =>
    let r := propRound ns (j :: top) (nlp + level)
    propagate r.1 r.2 nlp (level + 1) fuel

/-- Step 1 of `_go_down` (lines 85-86): append `di` to `ui.go_down` and
`ui` to `di.go_up`. -/
def edgesAdded (ns : List Node) (ui di : Nat) : List Node :=
  modifyN (modifyN ns ui (fun n => { n with go_down := n.go_down ++ [di] })) di
    (fun n => { n with go_up := n.go_up ++ [ui] })

/-- Step 2 of `_go_down` (lines 88-98): if the new edge raises the upper
node's `longest_path`, set it and run the ancestor-propagation loop. -/
def lpUpdate (ns2 : List Node) (ui di : Nat) : Option (List Node) :=
  if (getN ns2 di).longest_path + 1 > (getN ns2 ui).longest_path then
    let nlp := (getN ns2 di).longest_path + 1
    let ns3 := modifyN ns2 ui (fun n => { n with longest_path := nlp })
    propagate ns3 (getN ns3 ui).go_up nlp 1 (ns3.length + 1)
  else some ns2

/-- Step 3 of `_go_down` (lines 100-106): summit-set maintenance. -/
def summitUpdate (summits : Finset Nat) (ns4 : List Node) (ui di : Nat) : Finset Nat :=
  let s1 := if 0 < (getN ns4 di).go_down.length then summits.erase di else summits
  if (getN ns4 ui).go_down.length = 1 ∧ (getN ns4 ui).go_up = []
    then insert ui s1 else s1

/-- Mirrors `SkiMap._go_down` (lines 80-106): append the descent edge and
its back-reference, update `longest_path` of the upper node and all its
ascent ancestors, then maintain the summit set. -/
def go_down (s : SkiMap) (ui di : Nat) : Option SkiMap :=
  let ns2 := edgesAdded s.nodes ui di
  match lpUpdate ns2 ui di with
  | none => none
  | some ns4 => some { s with nodes := ns4, summits := summitUpdate s.summits ns4 ui di }

/-- Elevation of the grid cell at column `x`, row `y`. -/
def elevAt (rows : List (List Int)) (x y : Nat) : Int := (rows.getD y []).getD x 0

/-- All nodes exactly as `build_nodes` creates them (lines 46-49):
row-major index `i`, coordinates `(i % w, i / w)`, the cell's elevation,
empty edge lists, `longest_path = 0`. -/
def initNodes (rows : List (List Int)) (w h : Nat) : List Node :=
  (List.range (w * h)).map (fun k => ⟨k, k % w, k / w, elevAt rows (k % w) (k / w), [], [], 0⟩)

/-- The left-neighbor comparison of the scan (lines 51-55), as the edge
event it generates (pair of arena indices, upper first). -/
def hEdge (rows : List (List Int)) (w x y : Nat) : List (Nat × Nat) :=
  if x = 0 then []
  else
    let e := elevAt rows x y
    let le := elevAt rows (x - 1) y
    if le ≠ e then
      (if le < e then [(y * w + x, y * w + x - 1)] else [(y * w + x - 1, y * w + x)])
    else []

/-- The upper-neighbor comparison of the scan (lines 57-61). -/
def vEdge (rows : List (List Int)) (w x y : Nat) : List (Nat × Nat) :=
  if y = 0 then []
  else
    let e := elevAt rows x y
    let ue := elevAt rows x (y - 1)
    if ue ≠ e then
      (if ue < e then [(y * w + x, (y - 1) * w + x)] else [((y - 1) * w + x, y * w + x)])
    else []

def cellEdges (rows : List (List Int)) (w x y : Nat) : List (Nat × Nat) :=
  hEdge rows w x y ++ vEdge rows w x y

/-- The full sequence of `_go_down` calls made by `build_nodes`, in scan
order. -/
def buildEvents (rows : List (List Int)) (w h : Nat) : List (Nat × Nat) :=
  (List.range h).flatMap (fun y => (List.range w).flatMap (fun x => cellEdges rows w x y))

/-- Replay a sequence of edge insertions. -/
def runEvents : SkiMap → List (Nat × Nat) → Option SkiMap
  | s, [] => some s
  | s, e :: evs =>
    match go_down s e.1 e.2 with
    | none => none
    | some s' => runEvents s' evs

/-- A fresh `SkiMap` (constructor, lines 21-31) with its node arena
allocated. -/
def initMap (rows : List (List Int)) (w h : Nat) : SkiMap :=
  ⟨w, h, initNodes rows w h, ∅⟩

/-- Mirrors `SkiMap.build_nodes` (lines 33-67), see the header comment. -/
def build_nodes (rows : List (List Int)) (w h : Nat) : Option SkiMap :=
  runEvents (initMap rows w h) (buildEvents rows w h)

/-- The state reached after the first `n` edge insertions of the build:
"after every single edge insertion" claims quantify over `n`. -/
def buildState (rows : List (List Int)) (w h n : Nat) : Option SkiMap :=
  runEvents (initMap rows w h) ((buildEvents rows w h).take n)

/-- Mirrors `SkiMap.longest_paths` (lines 69-78).  With no target length
it takes `max` over the summit set, which raises `ValueError` when the
set is empty (`none` here); the result list (built from a Python `set`)
is returned as the `Finset` of summit indices passing the filter. -/
def longest_paths (s : SkiMap) (path_len : Option Nat) : Option (Finset Nat) :=
  match path_len with
  | some l => some (s.summits.filter (fun k => (getN s.nodes k).longest_path = l))
  | none =>
    if s.summits.Nonempty then
      some (s.summits.filter (fun k => (getN s.nodes k).longest_path
        = s.summits.sup (fun j => (getN s.nodes j).longest_path)))
    else none

/-- The per-summit level walk of `find_longest_path` (lines 141-158):
state is (minimum elevation seen, previous frontier); at each level the
candidate successors are filtered to those with
`longest_path = max_path_len - level`. -/
def walkDrop (ns : List Node) (start L : Nat) : Int :=
  let res := (List.range L).foldl (fun (acc : Int × Finset Nat) lvl =>
      let keep := (acc.2.biUnion (fun k => (getN ns k).go_down.toFinset)).filter
          (fun j => (getN ns j).longest_path = L - (lvl + 1))
      (keep.fold min acc.1 (fun j => (getN ns j).elevation), keep))
    ((getN ns start).elevation, {start})
  (getN ns start).elevation - res.1

/-- The reporting part of `find_longest_path` (lines 136-168) after the
build: query the maximal summits, raise (`none`) if there are none
(`max(∅)` on line 75 / `paths[0]` on line 137), else fold the maximum
vertical drop over them starting from 0.  `paths[0].longest_path` equals
the summit-wise maximum computed inside `longest_paths`, which is the
expression used here. -/
def reportResult (s : SkiMap) : Option (Nat × Int) :=
  match longest_paths s none with
  | none => none
  | some peaks =>
    if peaks.Nonempty then
      let L := s.summits.sup (fun k => (getN s.nodes k).longest_path)
      some (L, peaks.fold max 0 (fun k => walkDrop s.nodes k L))
    else none

/-- Mirrors `find_longest_path` (lines 124-168), prints elided. -/
def find_longest_path (rows : List (List Int)) (w h : Nat) : Option (Nat × Int) :=
  match build_nodes rows w h with
  | none => none
  | some s => reportResult s

/-! ### Maxima of lists of naturals and fuel-indexed suprema -/

def listMax (l : List Nat) : Nat := l.foldr max 0

def natSup (f : Nat → Nat) : Nat → Nat
  | 0 => 0
  | n + 1 => max (natSup f n) (f n)

/-! ### Skeleton preservation: everything except `longest_path` -/

/-- Two arenas agree on every field except possibly `longest_path`. -/
def SameSkel (ns ms : List Node) : Prop :=
  ns.length = ms.length ∧ ∀ k,
    (getN ns k).i = (getN ms k).i ∧
    (getN ns k).x = (getN ms k).x ∧
    (getN ns k).y = (getN ms k).y ∧
    (getN ns k).elevation = (getN ms k).elevation ∧
    (getN ns k).go_down = (getN ms k).go_down ∧
    (getN ns k).go_up = (getN ms k).go_up

/-! ### Frontier iteration of the propagation loop -/

/-- One frontier step: concatenate the `go_up` lists. -/
def stepF (ns : List Node) (F : List Nat) : List Nat :=
  F.flatMap (fun j => (getN ns j).go_up)

/-- The frontier after `t` steps. -/
def iterF (ns : List Node) (F : List Nat) : Nat → List Nat
  | 0 => F
  | t + 1 => iterF ns (stepF ns F) t

/-! ### The update part of one propagation round -/

/-- The `longest_path` updates a round applies to the frontier. -/
def bumpLP (ns : List Node) (F : List Nat) (v : Nat) : List Node :=
  F.foldl (fun a j => modifyN a j (fun n => { n with longest_path := max n.longest_path v })) ns

/-! ### Termination of the propagation loop -/

/-- Number of strictly higher nodes: a strict measure along ascent
edges. -/
def rankN (ns : List Node) (j : Nat) : Nat :=
  ((Finset.range ns.length).filter
    (fun k => (getN ns j).elevation < (getN ns k).elevation)).card

/-- Every `go_up` reference points into the arena, to a strictly higher
node.  (The fragment of well-formedness that drives termination.) -/
def UpOK (ns : List Node) : Prop :=
  ∀ j, ∀ m ∈ (getN ns j).go_up, m < ns.length ∧
    (getN ns j).elevation < (getN ns m).elevation

/-- The frontier measure: one more than the largest rank present. -/
def frontMeasure (ns : List Node) (F : List Nat) : Nat :=
  listMax (F.map (fun j => rankN ns j + 1))

/-! ### Characterisation of `lpUpdate` -/

/-- The total raise node `k` receives from the propagation loop run by
`lpUpdate ns2 ui di` (value `nlp + 1 + t` at frontier step `t`). -/
def gainOf (ns2 : List Node) (ui di k : Nat) : Nat :=
  natSup (fun t => if k ∈ iterF ns2 (getN ns2 ui).go_up t
    then (getN ns2 di).longest_path + 1 + 1 + t else 0) (ns2.length + 1)

/-! ### Support lemmas for the gain recurrence -/

def shiftS (a : Nat) : Nat := if a = 0 then 0 else a + 1

/-! ### Structural well-formedness of the graph -/

/-- `go_up` and `go_down` are mutual back-references. -/
def ConvOK (ns : List Node) : Prop :=
  ∀ j k, k ∈ (getN ns j).go_up ↔ j ∈ (getN ns k).go_down

/-- Every `go_down` reference points into the arena, to a strictly lower
node. -/
def DownOK (ns : List Node) : Prop :=
  ∀ j, ∀ c ∈ (getN ns j).go_down, c < ns.length ∧
    (getN ns c).elevation < (getN ns j).elevation

/-- Maximum `longest_path` among the descent successors of `k`. -/
def childLP (ns : List Node) (k : Nat) : Nat :=
  listMax (((getN ns k).go_down).map (fun c => (getN ns c).longest_path))

/-- The specification invariant: `longest_path` is 0 at sinks and
`1 + max` over the descent successors elsewhere. -/
def LpInv (ns : List Node) : Prop := ∀ k, k < ns.length →
  ((getN ns k).go_down = [] → (getN ns k).longest_path = 0) ∧
  ((getN ns k).go_down ≠ [] → (getN ns k).longest_path = 1 + childLP ns k)

/-! ### The summit-set invariant and its preservation -/

/-- The spec's summit characterisation: exactly the nodes with no
ascent predecessor and at least one descent successor. -/
def SummitInv (s : SkiMap) : Prop :=
  s.summits = (Finset.range s.nodes.length).filter
    (fun k => (getN s.nodes k).go_up = [] ∧ (getN s.nodes k).go_down ≠ [])

/-- Ascent reachability from `ui` (one or more `go_up` steps). -/
def AscendsTo (ns : List Node) (ui k : Nat) : Prop :=
  ∃ t, k ∈ iterF ns (getN ns ui).go_up t

/-! ### The global invariant along the build -/

/-- Everything maintained across the build: arena size, per-cell fields,
well-formed edges, the `longest_path` invariant and the summit
invariant. -/
structure GoodState (rows : List (List Int)) (w h : Nat) (s : SkiMap) : Prop where
  len : s.nodes.length = w * h
  elevF : ∀ k, k < w * h → (getN s.nodes k).elevation = elevAt rows (k % w) (k / w)
  coords : ∀ k, k < w * h → (getN s.nodes k).i = k ∧
    (getN s.nodes k).x = k % w ∧ (getN s.nodes k).y = k / w
  down : DownOK s.nodes
  up : UpOK s.nodes
  conv : ConvOK s.nodes
  inv : LpInv s.nodes
  summit : SummitInv s

/-- The edge lists are exactly the replayed events, in order. -/
def EdgeChar (evs : List (Nat × Nat)) (s : SkiMap) : Prop :=
  (∀ a, (getN s.nodes a).go_down = (evs.filter (fun p => p.1 == a)).map Prod.snd) ∧
  (∀ a, (getN s.nodes a).go_up = (evs.filter (fun p => p.2 == a)).map Prod.fst)

/-- A two-cell descent used as a concrete instance for the witnesses. -/
def twoNodeMap : SkiMap :=
  ⟨2, 1, [⟨0, 0, 0, 5, [], [], 0⟩, ⟨1, 1, 0, 3, [], [], 0⟩], ∅⟩

/-- The state after inserting the single edge of `twoNodeMap`. -/
def twoNodeResult : SkiMap :=
  ⟨2, 1, [⟨0, 0, 0, 5, [1], [], 1⟩, ⟨1, 1, 0, 3, [], [0], 0⟩], {0}⟩

/-! ### Claim theorems: concrete scenarios and the empty-summit query -/

/-- The state the build produces for the flat 2×2 grid `[[5,5],[5,5]]`. -/
def flatMapState : SkiMap :=
  ⟨2, 2, [⟨0, 0, 0, 5, [], [], 0⟩, ⟨1, 1, 0, 5, [], [], 0⟩,
    ⟨2, 0, 1, 5, [], [], 0⟩, ⟨3, 1, 1, 5, [], [], 0⟩], ∅⟩

/-- The left-comparison of cell `(xs, ys)` generates the event
`(i, j)`. -/
def hHit (rows : List (List Int)) (w i j xs ys : Nat) : Prop :=
  0 < xs ∧ ((i = ys * w + xs ∧ j = ys * w + xs - 1
      ∧ elevAt rows (xs - 1) ys < elevAt rows xs ys)
    ∨ (j = ys * w + xs ∧ i = ys * w + xs - 1
      ∧ elevAt rows xs ys < elevAt rows (xs - 1) ys))

/-- The upward comparison of cell `(xs, ys)` generates the event
`(i, j)`. -/
def vHit (rows : List (List Int)) (w i j xs ys : Nat) : Prop :=
  0 < ys ∧ ((i = ys * w + xs ∧ j = (ys - 1) * w + xs
      ∧ elevAt rows xs (ys - 1) < elevAt rows xs ys)
    ∨ (j = ys * w + xs ∧ i = (ys - 1) * w + xs
      ∧ elevAt rows xs ys < elevAt rows xs (ys - 1)))

instance (rows : List (List Int)) (w i j xs ys : Nat) :
    Decidable (hHit rows w i j xs ys) := by
  unfold hHit
  infer_instance

instance (rows : List (List Int)) (w i j xs ys : Nat) :
    Decidable (vHit rows w i j xs ys) := by
  unfold vHit
  infer_instance

/-- Orthogonal (4-connectivity) adjacency of two cells. -/
def orthAdj (x y x2 y2 : Nat) : Prop :=
  (y = y2 ∧ (x + 1 = x2 ∨ x2 + 1 = x)) ∨ (x = x2 ∧ (y + 1 = y2 ∨ y2 + 1 = y))

instance (x y x2 y2 : Nat) : Decidable (orthAdj x y x2 y2) := by
  unfold orthAdj
  infer_instance

/-- The frontier walk as the specification words it: the frontier at
level 0 is the summit itself; the frontier at level `k+1` is the set of
descent-successors of the previous frontier whose `longest_path` equals
exactly `L - (k+1)`. -/
def specFrontier (ns : List Node) (start L : Nat) : Nat → Finset Nat
  | 0 => {start}
  | k + 1 => ((specFrontier ns start L k).biUnion
      (fun j => (getN ns j).go_down.toFinset)).filter
    (fun j => (getN ns j).longest_path = L - (k + 1))

/-- Minimum elevation seen across the frontiers from level 0 through
level `t` (seeded with the summit's own elevation, which level 0
contributes anyway). -/
def frontierMin (ns : List Node) (start L t : Nat) : Int :=
  ((Finset.range (t + 1)).biUnion (specFrontier ns start L)).fold min
    (getN ns start).elevation (fun j => (getN ns j).elevation)

/-- The vertical drop as the specification words it: the summit's
elevation minus the minimum elevation seen across all frontiers from
level 0 through level `L`. -/
def specDrop (ns : List Node) (start L : Nat) : Int :=
  (getN ns start).elevation - frontierMin ns start L L

/-- The graph state built from the single-row grid `[[3, 2, 1]]`. -/
def chainState : SkiMap :=
  ⟨3, 1, [⟨0, 0, 0, 3, [1], [], 2⟩, ⟨1, 1, 0, 2, [2], [0], 1⟩,
    ⟨2, 2, 0, 1, [], [1], 0⟩], {0}⟩

/-! ### Arena access lemmas -/

theorem length_modifyN (ns : List Node) (k : Nat) (f : Node → Node) :
    (modifyN ns k f).length = ns.length := List.length_set ns k _

theorem getN_modifyN_self {ns : List Node} {k : Nat} (f : Node → Node) (hk : k < ns.length) :
    getN (modifyN ns k f) k = f (getN ns k) := by
  simp [getN, modifyN, List.getD_eq_getElem?_getD, List.getElem?_set_self hk]

theorem getN_modifyN_ne {ns : List Node} {k j : Nat} (f : Node → Node) (h : k ≠ j) :
    getN (modifyN ns k f) j = getN ns j := by
  simp [getN, modifyN, List.getD_eq_getElem?_getD, List.getElem?_set_ne h]

theorem getN_modifyN (ns : List Node) (k j : Nat) (f : Node → Node) :
    getN (modifyN ns k f) j
      = if k = j ∧ k < ns.length then f (getN ns j) else getN ns j := by
  by_cases hkj : k = j
  · subst hkj
    by_cases hk : k < ns.length
    · simp [hk, getN_modifyN_self f hk]
    · simp [hk, getN, modifyN, List.getD_eq_getElem?_getD, List.getElem?_set,
        List.getElem?_eq_none (Nat.le_of_not_lt hk)]
  · simp [hkj, getN_modifyN_ne f hkj]

theorem getN_of_length_le {ns : List Node} {k : Nat} (h : ns.length ≤ k) :
    getN ns k = dNode := by
  simp [getN, List.getD_eq_getElem?_getD, List.getElem?_eq_none h]

theorem listMax_nil : listMax [] = 0 := rfl

theorem listMax_cons (a : Nat) (l : List Nat) : listMax (a :: l) = max a (listMax l) := rfl

theorem listMax_append (l₁ l₂ : List Nat) :
    listMax (l₁ ++ l₂) = max (listMax l₁) (listMax l₂) := by
  induction l₁ with
  | nil => simp [listMax]
  | cons a l ih => simp [listMax_cons, List.cons_append, ih]; omega

theorem le_listMax_of_mem {a : Nat} {l : List Nat} (h : a ∈ l) : a ≤ listMax l := by
  induction l with
  | nil => cases h
  | cons b l ih =>
    rcases List.mem_cons.mp h with h | h
    · subst h; simp [listMax_cons] <;> omega
    · have := ih h; simp [listMax_cons] <;> omega

theorem listMax_le {l : List Nat} {n : Nat} (h : ∀ a ∈ l, a ≤ n) : listMax l ≤ n := by
  induction l with
  | nil => simp [listMax]
  | cons b l ih =>
    have h1 := h b (List.mem_cons_self b l)
    have h2 := ih (fun a ha => h a (List.mem_cons_of_mem b ha))
    simp [listMax_cons] <;> omega

theorem listMax_map_congr {f g : Nat → Nat} {l : List Nat} (h : ∀ a ∈ l, f a = g a) :
    listMax (l.map f) = listMax (l.map g) := by
  induction l with
  | nil => rfl
  | cons b l ih =>
    have h1 := h b (List.mem_cons_self b l)
    have h2 := ih (fun a ha => h a (List.mem_cons_of_mem b ha))
    simp [listMax_cons, h1, h2]

theorem listMax_map_max (f g : Nat → Nat) (l : List Nat) :
    listMax (l.map (fun c => max (f c) (g c)))
      = max (listMax (l.map f)) (listMax (l.map g)) := by
  induction l with
  | nil => rfl
  | cons b l ih => simp [listMax_cons, ih]; omega

theorem natSup_congr {f g : Nat → Nat} {n : Nat} (h : ∀ t < n, f t = g t) :
    natSup f n = natSup g n := by
  induction n with
  | zero => rfl
  | succ n ih =>
    have h1 := h n (Nat.lt_succ_self n)
    have h2 := ih (fun t ht => h t (Nat.lt_succ_of_lt ht))
    simp [natSup, h1, h2]

theorem le_natSup {f : Nat → Nat} {t n : Nat} (h : t < n) : f t ≤ natSup f n := by
  induction n with
  | zero => omega
  | succ n ih =>
    rcases Nat.lt_succ_iff_lt_or_eq.mp h with h | h
    · have := ih h; simp [natSup] <;> omega
    · subst h; simp [natSup] <;> omega

theorem natSup_le {f : Nat → Nat} {n m : Nat} (h : ∀ t < n, f t ≤ m) : natSup f n ≤ m := by
  induction n with
  | zero => simp [natSup]
  | succ n ih =>
    have h1 := h n (Nat.lt_succ_self n)
    have h2 := ih (fun t ht => h t (Nat.lt_succ_of_lt ht))
    simp [natSup] <;> omega

theorem natSup_succ_bot (f : Nat → Nat) (n : Nat) :
    natSup f (n + 1) = max (f 0) (natSup (fun t => f (t + 1)) n) := by
  induction n with
  | zero => simp [natSup] <;> omega
  | succ n ih => simp [natSup] at ih ⊢ <;> omega

theorem natSup_stable {f : Nat → Nat} {T n m : Nat} (hf : ∀ t, T ≤ t → f t = 0)
    (h1 : T ≤ n) (h2 : T ≤ m) : natSup f n = natSup f m := by
  have key : ∀ k, natSup f (T + k) = natSup f T := by
    intro k
    induction k with
    | zero => rfl
    | succ k ih =>
      have h0 : f (T + k) = 0 := hf _ (Nat.le_add_right T k)
      show max (natSup f (T + k)) (f (T + k)) = natSup f T
      rw [h0, ih]; omega
  obtain ⟨a, rfl⟩ : ∃ a, n = T + a := ⟨n - T, by omega⟩
  obtain ⟨b, rfl⟩ : ∃ b, m = T + b := ⟨m - T, by omega⟩
  rw [key, key]

theorem SameSkel.refl (ns : List Node) : SameSkel ns ns :=
  ⟨rfl, fun _ => ⟨rfl, rfl, rfl, rfl, rfl, rfl⟩⟩

theorem SameSkel.trans {ns ms ls : List Node} (h1 : SameSkel ns ms) (h2 : SameSkel ms ls) :
    SameSkel ns ls := by
  obtain ⟨hl1, hf1⟩ := h1
  obtain ⟨hl2, hf2⟩ := h2
  refine ⟨hl1.trans hl2, fun k => ?_⟩
  obtain ⟨a1, b1, c1, d1, e1, f1⟩ := hf1 k
  obtain ⟨a2, b2, c2, d2, e2, f2⟩ := hf2 k
  exact ⟨a1.trans a2, b1.trans b2, c1.trans c2, d1.trans d2, e1.trans e2, f1.trans f2⟩

theorem SameSkel_bump (ns : List Node) (k v : Nat) :
    SameSkel (modifyN ns k (fun n => { n with longest_path := max n.longest_path v })) ns := by
  refine ⟨length_modifyN ns k _, fun j => ?_⟩
  rw [getN_modifyN]
  split
  · simp
  · simp

theorem SameSkel_setLP (ns : List Node) (k v : Nat) :
    SameSkel (modifyN ns k (fun n => { n with longest_path := v })) ns := by
  refine ⟨length_modifyN ns k _, fun j => ?_⟩
  rw [getN_modifyN]
  split
  · simp
  · simp

theorem stepF_congr {ns ms : List Node} (h : SameSkel ns ms) (F : List Nat) :
    stepF ns F = stepF ms F := by
  unfold stepF
  have : (fun j => (getN ns j).go_up) = (fun j => (getN ms j).go_up) := by
    funext j
    exact (h.2 j).2.2.2.2.2
  rw [this]

theorem iterF_congr {ns ms : List Node} (h : SameSkel ns ms) (F : List Nat) (t : Nat) :
    iterF ns F t = iterF ms F t := by
  induction t generalizing F with
  | zero => rfl
  | succ t ih =>
    show iterF ns (stepF ns F) t = iterF ms (stepF ms F) t
    rw [stepF_congr h, ih]

theorem iterF_nil (ns : List Node) (t : Nat) : iterF ns [] t = [] := by
  induction t with
  | zero => rfl
  | succ t ih =>
    show iterF ns (stepF ns []) t = []
    have : stepF ns [] = [] := rfl
    rw [this, ih]

theorem iterF_succ_out (ns : List Node) (F : List Nat) (t : Nat) :
    iterF ns F (t + 1) = stepF ns (iterF ns F t) := by
  induction t generalizing F with
  | zero => rfl
  | succ t ih =>
    show iterF ns (stepF ns F) (t + 1) = stepF ns (iterF ns (stepF ns F) t)
    exact ih (stepF ns F)

theorem mem_stepF {ns : List Node} {F : List Nat} {m : Nat} :
    m ∈ stepF ns F ↔ ∃ j ∈ F, m ∈ (getN ns j).go_up := List.mem_flatMap

theorem iterF_empty_later {ns : List Node} {F : List Nat} {T : Nat}
    (h : iterF ns F T = []) {t : Nat} (ht : T ≤ t) : iterF ns F t = [] := by
  obtain ⟨a, rfl⟩ : ∃ a, t = T + a := ⟨t - T, by omega⟩
  induction a with
  | zero => exact h
  | succ a ih =>
    show iterF ns F (T + a + 1) = []
    rw [iterF_succ_out, ih (by omega)]
    rfl

theorem length_bumpLP (ns : List Node) (F : List Nat) (v : Nat) :
    (bumpLP ns F v).length = ns.length := by
  induction F generalizing ns with
  | nil => rfl
  | cons j F ih =>
    show (bumpLP (modifyN ns j _) F v).length = ns.length
    rw [ih, length_modifyN]

theorem SameSkel_bumpLP (ns : List Node) (F : List Nat) (v : Nat) :
    SameSkel (bumpLP ns F v) ns := by
  induction F generalizing ns with
  | nil => exact SameSkel.refl ns
  | cons j F ih =>
    exact (ih (modifyN ns j _)).trans (SameSkel_bump ns j v)

theorem lp_bumpLP (ns : List Node) (F : List Nat) (v : Nat) {k : Nat} (hk : k < ns.length) :
    (getN (bumpLP ns F v) k).longest_path
      = if k ∈ F then max (getN ns k).longest_path v else (getN ns k).longest_path := by
  induction F generalizing ns with
  | nil => simp [bumpLP]
  | cons j F ih =>
    have hk' : k < (modifyN ns j (fun n => { n with longest_path := max n.longest_path v })).length := by
      rw [length_modifyN]; exact hk
    have step : (getN (bumpLP ns (j :: F) v) k).longest_path
        = if k ∈ F
          then max (getN (modifyN ns j (fun n => { n with longest_path := max n.longest_path v })) k).longest_path v
          else (getN (modifyN ns j (fun n => { n with longest_path := max n.longest_path v })) k).longest_path :=
      ih _ hk'
    rw [step, getN_modifyN]
    have hmem : (k ∈ j :: F) ↔ (j = k ∨ k ∈ F) := by
      rw [List.mem_cons]
      constructor
      · rintro (h | h)
        · exact Or.inl h.symm
        · exact Or.inr h
      · rintro (h | h)
        · exact Or.inl h.symm
        · exact Or.inr h
    by_cases hjk : j = k <;> by_cases hkF : k ∈ F <;>
      simp [hjk, hkF, hk, hmem] <;> omega

theorem propRound_eq (ns : List Node) (F : List Nat) (v : Nat) :
    propRound ns F v = (bumpLP ns F v, stepF ns F) := by
  suffices h : ∀ F ns (acc : List Nat),
      F.foldl (fun acc j =>
        let ns' := modifyN acc.1 j (fun n => { n with longest_path := max n.longest_path v })
        (ns', acc.2 ++ (getN ns' j).go_up)) (ns, acc)
      = (bumpLP ns F v, acc ++ stepF ns F) by
    have := h F ns []
    simpa [propRound] using this
  intro F
  induction F with
  | nil => intro ns acc; simp [bumpLP, stepF]
  | cons j F ih =>
    intro ns acc
    show F.foldl _ (modifyN ns j _, acc ++ (getN (modifyN ns j _) j).go_up) = _
    rw [ih]
    have hup : (getN (modifyN ns j
        (fun n => { n with longest_path := max n.longest_path v })) j).go_up
        = (getN ns j).go_up := by
      rw [getN_modifyN]
      split
      · simp
      · rfl
    have hstep : stepF (modifyN ns j
        (fun n => { n with longest_path := max n.longest_path v })) F = stepF ns F :=
      stepF_congr (SameSkel_bump ns j v) F
    rw [hup, hstep]
    have h2 : stepF ns (j :: F) = (getN ns j).go_up ++ stepF ns F := rfl
    rw [h2, ← List.append_assoc]
    rfl

/-! ### Full characterisation of the propagation loop -/

theorem natSup_zero_fun (n : Nat) : natSup (fun _ => 0) n = 0 := by
  induction n with
  | zero => rfl
  | succ n ih => simp [natSup, ih]

theorem natSup_nilF (ns : List Node) (nlp level fuel k : Nat) :
    natSup (fun t => if k ∈ iterF ns [] t then nlp + level + t else 0) fuel = 0 := by
  have h : ∀ t < fuel, (if k ∈ iterF ns [] t then nlp + level + t else 0) = 0 := by
    intro t _
    rw [iterF_nil]
    simp
  rw [natSup_congr h, natSup_zero_fun]

/-- What one call of the worklist loop does to every `longest_path`:
node `k` receives `max` with `nlp + level + t` for every step count `t`
at which it occurs in the frontier; nothing else changes. -/
theorem propagate_spec : ∀ (fuel : Nat) (F : List Nat) (ns : List Node) (nlp level : Nat)
    (ns' : List Node), propagate ns F nlp level fuel = some ns' →
    SameSkel ns' ns ∧ ∀ k, k < ns.length → (getN ns' k).longest_path
      = max (getN ns k).longest_path
          (natSup (fun t => if k ∈ iterF ns F t then nlp + level + t else 0) fuel) := by
  intro fuel
  induction fuel with
  | zero =>
    intro F ns nlp level ns' h
    cases F with
    | nil =>
      simp only [propagate, Option.some.injEq] at h
      subst h
      refine ⟨SameSkel.refl ns, fun k _ => ?_⟩
      rw [natSup_nilF]
      omega
    | cons j top => simp [propagate] at h
  | succ fuel ih =>
    intro F ns nlp level ns' h
    cases F with
    | nil =>
      simp only [propagate, Option.some.injEq] at h
      subst h
      refine ⟨SameSkel.refl ns, fun k _ => ?_⟩
      rw [natSup_nilF]
      omega
    | cons j top =>
      have hstep : propagate ns (j :: top) nlp level (fuel + 1)
          = propagate (bumpLP ns (j :: top) (nlp + level)) (stepF ns (j :: top))
              nlp (level + 1) fuel := by
        show propagate (propRound ns (j :: top) (nlp + level)).1
            (propRound ns (j :: top) (nlp + level)).2 nlp (level + 1) fuel = _
        rw [propRound_eq]
      rw [hstep] at h
      obtain ⟨hskel, hlp⟩ := ih _ _ _ _ _ h
      have hskel1 : SameSkel (bumpLP ns (j :: top) (nlp + level)) ns :=
        SameSkel_bumpLP ns (j :: top) (nlp + level)
      refine ⟨hskel.trans hskel1, ?_⟩
      intro k hk
      have hk1 : k < (bumpLP ns (j :: top) (nlp + level)).length := by
        rw [length_bumpLP]; exact hk
      have h1 := hlp k hk1
      rw [lp_bumpLP ns (j :: top) (nlp + level) hk] at h1
      have hS : natSup (fun t =>
            if k ∈ iterF (bumpLP ns (j :: top) (nlp + level)) (stepF ns (j :: top)) t
            then nlp + (level + 1) + t else 0) fuel
          = natSup (fun t =>
            (fun u => if k ∈ iterF ns (j :: top) u then nlp + level + u else 0) (t + 1)) fuel := by
        apply natSup_congr
        intro t _
        show (if k ∈ iterF (bumpLP ns (j :: top) (nlp + level)) (stepF ns (j :: top)) t
            then nlp + (level + 1) + t else 0)
          = (if k ∈ iterF ns (j :: top) (t + 1) then nlp + level + (t + 1) else 0)
        rw [iterF_congr hskel1]
        have harith : nlp + (level + 1) + t = nlp + level + (t + 1) := by omega
        have hit : iterF ns (j :: top) (t + 1) = iterF ns (stepF ns (j :: top)) t := rfl
        rw [harith, hit]
      rw [hS] at h1
      rw [h1, natSup_succ_bot]
      have h0 : iterF ns (j :: top) 0 = j :: top := rfl
      rw [h0]
      by_cases hkF : k ∈ (j :: top) <;> simp only [hkF, if_pos, if_neg, not_false_iff] <;> omega

theorem rankN_lt {ns : List Node} {j m : Nat} (hm : m < ns.length)
    (h : (getN ns j).elevation < (getN ns m).elevation) :
    rankN ns m < rankN ns j := by
  apply Finset.card_lt_card
  constructor
  · intro k hk
    rw [Finset.mem_filter] at hk ⊢
    exact ⟨hk.1, h.trans hk.2⟩
  · intro hsub
    have hmem : m ∈ (Finset.range ns.length).filter
        (fun k => (getN ns j).elevation < (getN ns k).elevation) := by
      rw [Finset.mem_filter]
      exact ⟨Finset.mem_range.mpr hm, h⟩
    have := hsub hmem
    rw [Finset.mem_filter] at this
    exact absurd this.2 (lt_irrefl _)

theorem rankN_lt_length {ns : List Node} {j : Nat} (hj : j < ns.length) :
    rankN ns j < ns.length := by
  have hsub : (Finset.range ns.length).filter
      (fun k => (getN ns j).elevation < (getN ns k).elevation) ⊂ Finset.range ns.length := by
    constructor
    · exact Finset.filter_subset _ _
    · intro hsub
      have := hsub (Finset.mem_range.mpr hj)
      rw [Finset.mem_filter] at this
      exact absurd this.2 (lt_irrefl _)
  have := Finset.card_lt_card hsub
  simpa using this

theorem iterF_empty_of_measure (ns : List Node) (hup : UpOK ns) :
    ∀ (B : Nat) (F : List Nat), frontMeasure ns F ≤ B → iterF ns F B = [] := by
  intro B
  induction B with
  | zero =>
    intro F hF
    cases F with
    | nil => rfl
    | cons j top =>
      exfalso
      have hle : rankN ns j + 1 ≤ frontMeasure ns (j :: top) :=
        le_listMax_of_mem (List.mem_map_of_mem _ (List.mem_cons_self j top))
      omega
  | succ B ihB =>
    intro F hF
    cases F with
    | nil => exact iterF_nil ns (B + 1)
    | cons j top =>
      show iterF ns (stepF ns (j :: top)) B = []
      apply ihB
      apply listMax_le
      intro a ha
      obtain ⟨m, hmF, rfl⟩ := List.mem_map.mp ha
      obtain ⟨j', hj'F, hmup⟩ := mem_stepF.mp hmF
      obtain ⟨hmlen, hmelev⟩ := hup j' m hmup
      have hrank : rankN ns m < rankN ns j' := rankN_lt hmlen hmelev
      have hj'le : rankN ns j' + 1 ≤ frontMeasure ns (j :: top) :=
        le_listMax_of_mem (List.mem_map_of_mem _ hj'F)
      show rankN ns m + 1 ≤ B
      omega

theorem frontMeasure_le_length {ns : List Node} {F : List Nat}
    (h : ∀ j ∈ F, j < ns.length) : frontMeasure ns F ≤ ns.length := by
  apply listMax_le
  intro a ha
  obtain ⟨j, hjF, rfl⟩ := List.mem_map.mp ha
  have := rankN_lt_length (h j hjF)
  show rankN ns j + 1 ≤ ns.length
  omega

theorem propagate_isSome : ∀ (fuel : Nat) (F : List Nat) (ns : List Node) (nlp level : Nat),
    (∃ T, T ≤ fuel ∧ iterF ns F T = []) →
    ∃ ns', propagate ns F nlp level fuel = some ns' := by
  intro fuel
  induction fuel with
  | zero =>
    intro F ns nlp level hT
    cases F with
    | nil => exact ⟨ns, rfl⟩
    | cons j top =>
      obtain ⟨T, hT0, hTe⟩ := hT
      interval_cases T
      simp [iterF] at hTe
  | succ fuel ih =>
    intro F ns nlp level hT
    cases F with
    | nil => exact ⟨ns, rfl⟩
    | cons j top =>
      obtain ⟨T, hT0, hTe⟩ := hT
      cases T with
      | zero => simp [iterF] at hTe
      | succ T =>
        have hstep : propagate ns (j :: top) nlp level (fuel + 1)
            = propagate (bumpLP ns (j :: top) (nlp + level)) (stepF ns (j :: top))
                nlp (level + 1) fuel := by
          show propagate (propRound ns (j :: top) (nlp + level)).1
              (propRound ns (j :: top) (nlp + level)).2 nlp (level + 1) fuel = _
          rw [propRound_eq]
        rw [hstep]
        apply ih
        refine ⟨T, by omega, ?_⟩
        rw [iterF_congr (SameSkel_bumpLP ns (j :: top) (nlp + level))]
        exact hTe

theorem UpOK_congr {ns ms : List Node} (h : SameSkel ns ms) (hm : UpOK ms) : UpOK ns := by
  intro j m hmem
  rw [(h.2 j).2.2.2.2.2] at hmem
  obtain ⟨h1, h2⟩ := hm j m hmem
  refine ⟨by rw [h.1]; exact h1, ?_⟩
  rw [(h.2 j).2.2.2.1, (h.2 m).2.2.2.1]
  exact h2

theorem lpUpdate_pos {ns2 : List Node} {ui di : Nat}
    (h : (getN ns2 di).longest_path + 1 > (getN ns2 ui).longest_path) :
    lpUpdate ns2 ui di
      = propagate
          (modifyN ns2 ui (fun n => { n with longest_path := (getN ns2 di).longest_path + 1 }))
          (getN (modifyN ns2 ui
            (fun n => { n with longest_path := (getN ns2 di).longest_path + 1 })) ui).go_up
          ((getN ns2 di).longest_path + 1) 1
          ((modifyN ns2 ui
            (fun n => { n with longest_path := (getN ns2 di).longest_path + 1 })).length + 1) := by
  unfold lpUpdate
  rw [if_pos h]

theorem lpUpdate_neg {ns2 : List Node} {ui di : Nat}
    (h : ¬ (getN ns2 di).longest_path + 1 > (getN ns2 ui).longest_path) :
    lpUpdate ns2 ui di = some ns2 := by
  unfold lpUpdate
  rw [if_neg h]

/-- Sufficiency of the fuel `ns3.length + 1` used in `lpUpdate`: under
well-formed ascent references the worklist empties in time. -/
theorem lpUpdate_isSome {ns2 : List Node} (hup : UpOK ns2) (ui di : Nat) :
    ∃ ns4, lpUpdate ns2 ui di = some ns4 := by
  by_cases h : (getN ns2 di).longest_path + 1 > (getN ns2 ui).longest_path
  · rw [lpUpdate_pos h]
    have hskel3 : SameSkel
        (modifyN ns2 ui (fun n => { n with longest_path := (getN ns2 di).longest_path + 1 }))
        ns2 := SameSkel_setLP ns2 ui _
    have hup3 : UpOK
        (modifyN ns2 ui (fun n => { n with longest_path := (getN ns2 di).longest_path + 1 })) :=
      UpOK_congr hskel3 hup
    have hF : ∀ j ∈ (getN (modifyN ns2 ui
        (fun n => { n with longest_path := (getN ns2 di).longest_path + 1 })) ui).go_up,
        j < (modifyN ns2 ui
          (fun n => { n with longest_path := (getN ns2 di).longest_path + 1 })).length := by
      intro j hj
      exact (hup3 ui j hj).1
    apply propagate_isSome
    exact ⟨_, Nat.le_succ _,
      iterF_empty_of_measure _ hup3 _ _ (frontMeasure_le_length hF)⟩
  · exact ⟨ns2, lpUpdate_neg h⟩

/-! ### Effect of `edgesAdded` on the arena -/

theorem length_edgesAdded (ns : List Node) (ui di : Nat) :
    (edgesAdded ns ui di).length = ns.length := by
  unfold edgesAdded
  rw [length_modifyN, length_modifyN]

theorem fields_edgesAdded (ns : List Node) (ui di k : Nat) :
    (getN (edgesAdded ns ui di) k).longest_path = (getN ns k).longest_path ∧
    (getN (edgesAdded ns ui di) k).elevation = (getN ns k).elevation ∧
    (getN (edgesAdded ns ui di) k).i = (getN ns k).i ∧
    (getN (edgesAdded ns ui di) k).x = (getN ns k).x ∧
    (getN (edgesAdded ns ui di) k).y = (getN ns k).y := by
  unfold edgesAdded
  rw [getN_modifyN]
  split <;> (rw [getN_modifyN]; split <;> simp)

theorem go_down_edgesAdded_self {ns : List Node} {ui di : Nat} (hu : ui < ns.length)
    (hne : ui ≠ di) :
    (getN (edgesAdded ns ui di) ui).go_down = (getN ns ui).go_down ++ [di] := by
  unfold edgesAdded
  rw [getN_modifyN_ne _ (Ne.symm hne), getN_modifyN_self _ hu]

theorem go_down_edgesAdded_other {ns : List Node} {ui di k : Nat} (hk : k ≠ ui) :
    (getN (edgesAdded ns ui di) k).go_down = (getN ns k).go_down := by
  unfold edgesAdded
  rw [getN_modifyN, getN_modifyN]
  split <;> split <;> simp_all

theorem go_up_edgesAdded_self {ns : List Node} {ui di : Nat} (hd : di < ns.length)
    (hne : ui ≠ di) :
    (getN (edgesAdded ns ui di) di).go_up = (getN ns di).go_up ++ [ui] := by
  unfold edgesAdded
  have hd' : di < (modifyN ns ui (fun n => { n with go_down := n.go_down ++ [di] })).length := by
    rw [length_modifyN]; exact hd
  rw [getN_modifyN_self _ hd', getN_modifyN_ne _ hne]

theorem go_up_edgesAdded_other {ns : List Node} {ui di k : Nat} (hk : k ≠ di) :
    (getN (edgesAdded ns ui di) k).go_up = (getN ns k).go_up := by
  unfold edgesAdded
  rw [getN_modifyN, getN_modifyN]
  split <;> split <;> simp_all

theorem lpUpdate_spec {ns2 ns4 : List Node} {ui di : Nat} (hu : ui < ns2.length)
    (h : lpUpdate ns2 ui di = some ns4) :
    SameSkel ns4 ns2 ∧
    (¬ (getN ns2 di).longest_path + 1 > (getN ns2 ui).longest_path → ns4 = ns2) ∧
    ((getN ns2 di).longest_path + 1 > (getN ns2 ui).longest_path →
      ∀ k, k < ns2.length → (getN ns4 k).longest_path
        = max (if k = ui then (getN ns2 di).longest_path + 1 else (getN ns2 k).longest_path)
            (gainOf ns2 ui di k)) := by
  by_cases hc : (getN ns2 di).longest_path + 1 > (getN ns2 ui).longest_path
  · rw [lpUpdate_pos hc] at h
    obtain ⟨hskel, hlp⟩ := propagate_spec _ _ _ _ _ _ h
    have hskel3 : SameSkel
        (modifyN ns2 ui (fun n => { n with longest_path := (getN ns2 di).longest_path + 1 }))
        ns2 := SameSkel_setLP ns2 ui _
    refine ⟨hskel.trans hskel3, fun hn => absurd hc hn, fun _ k hk => ?_⟩
    have hk3 : k < (modifyN ns2 ui
        (fun n => { n with longest_path := (getN ns2 di).longest_path + 1 })).length := by
      rw [length_modifyN]; exact hk
    have h1 := hlp k hk3
    have hlen3 : (modifyN ns2 ui
        (fun n => { n with longest_path := (getN ns2 di).longest_path + 1 })).length
        = ns2.length := length_modifyN ns2 ui _
    have hlpmid : (getN (modifyN ns2 ui
        (fun n => { n with longest_path := (getN ns2 di).longest_path + 1 })) k).longest_path
        = if k = ui then (getN ns2 di).longest_path + 1 else (getN ns2 k).longest_path := by
      rw [getN_modifyN]
      by_cases hku : k = ui
      · subst hku; simp [hk]
      · simp [hku, Ne.symm hku]
    have hF : (getN (modifyN ns2 ui
        (fun n => { n with longest_path := (getN ns2 di).longest_path + 1 })) ui).go_up
        = (getN ns2 ui).go_up := (hskel3.2 ui).2.2.2.2.2
    have hiter : ∀ t, iterF (modifyN ns2 ui
        (fun n => { n with longest_path := (getN ns2 di).longest_path + 1 }))
          (getN ns2 ui).go_up t
        = iterF ns2 (getN ns2 ui).go_up t := fun t => iterF_congr hskel3 _ t
    rw [h1, hlpmid, hF, hlen3]
    congr 1
    unfold gainOf
    apply natSup_congr
    intro t _
    rw [hiter t]
  · rw [lpUpdate_neg hc] at h
    injection h with h
    subst h
    exact ⟨SameSkel.refl ns2, fun _ => rfl, fun hcc => absurd hcc hc⟩

theorem shiftS_max (a b : Nat) : shiftS (max a b) = max (shiftS a) (shiftS b) := by
  unfold shiftS
  by_cases ha : a = 0 <;> by_cases hb : b = 0 <;> simp [ha, hb] <;> omega

theorem listMax_zero_fun (C : List Nat) : listMax (C.map (fun _ => 0)) = 0 := by
  induction C with
  | nil => rfl
  | cons a C ih => rw [List.map_cons, listMax_cons, ih]; omega

theorem listMax_map_shiftS (g : Nat → Nat) (C : List Nat) :
    listMax (C.map (fun c => shiftS (g c))) = shiftS (listMax (C.map g)) := by
  induction C with
  | nil => rfl
  | cons a C ih =>
    simp only [List.map_cons, listMax_cons, ih, shiftS_max]

theorem natSup_shiftS (f : Nat → Nat) (n : Nat) :
    natSup (fun t => shiftS (f t)) n = shiftS (natSup f n) := by
  induction n with
  | zero => rfl
  | succ n ih =>
    show max (natSup (fun t => shiftS (f t)) n) (shiftS (f n)) = shiftS (max (natSup f n) (f n))
    rw [ih, shiftS_max]

theorem listMax_indicator (C : List Nat) (u v : Nat) :
    listMax (C.map (fun c => if c = u then v else 0)) = if u ∈ C then v else 0 := by
  induction C with
  | nil => simp [listMax]
  | cons a C ih =>
    simp only [List.map_cons, listMax_cons, ih]
    by_cases hau : a = u
    · subst hau
      by_cases hmem : a ∈ C <;> simp [hmem, List.mem_cons] <;> omega
    · by_cases hmem : u ∈ C <;> simp [hau, hmem, List.mem_cons, Ne.symm] <;> omega

theorem indicator_exists (C : List Nat) (P : Nat → Prop) [DecidablePred P] (v : Nat) :
    (if ∃ c ∈ C, P c then v else 0) = listMax (C.map (fun c => if P c then v else 0)) := by
  induction C with
  | nil => simp [listMax]
  | cons a C ih =>
    simp only [List.map_cons, listMax_cons, ← ih]
    by_cases hpa : P a <;> by_cases hex : ∃ c ∈ C, P c <;>
      simp [hpa, hex, List.mem_cons] <;> omega

theorem natSup_listMax (G : Nat → Nat → Nat) (C : List Nat) (n : Nat) :
    natSup (fun t => listMax (C.map (fun c => G c t))) n
      = listMax (C.map (fun c => natSup (G c) n)) := by
  induction n with
  | zero =>
    show 0 = listMax (C.map (fun c => natSup (G c) 0))
    rw [show (fun c => natSup (G c) 0) = (fun _ : Nat => 0) from rfl, listMax_zero_fun]
  | succ n ih =>
    show max (natSup (fun t => listMax (C.map (fun c => G c t))) n)
        (listMax (C.map (fun c => G c n))) = _
    rw [ih, ← listMax_map_max]
    rfl

theorem mem_iterF_succ {ns : List Node} (hconv : ConvOK ns) (F : List Nat) (t k : Nat) :
    k ∈ iterF ns F (t + 1) ↔ ∃ c ∈ (getN ns k).go_down, c ∈ iterF ns F t := by
  rw [iterF_succ_out, mem_stepF]
  constructor
  · rintro ⟨j, hjG, hk⟩
    exact ⟨j, (hconv j k).mp hk, hjG⟩
  · rintro ⟨c, hc, hcG⟩
    exact ⟨c, hcG, (hconv c k).mpr hc⟩

theorem iterF_elev {ns : List Node} (hup : UpOK ns) (ui : Nat) :
    ∀ (t m : Nat), m ∈ iterF ns (getN ns ui).go_up t →
      m < ns.length ∧ (getN ns ui).elevation < (getN ns m).elevation := by
  intro t
  induction t with
  | zero => intro m hm; exact hup ui m hm
  | succ t ih =>
    intro m hm
    rw [iterF_succ_out] at hm
    obtain ⟨j, hjG, hmj⟩ := mem_stepF.mp hm
    obtain ⟨_, hjelev⟩ := ih j hjG
    obtain ⟨hmlen, hmelev⟩ := hup j m hmj
    exact ⟨hmlen, hjelev.trans hmelev⟩

theorem iterF_up_vanish {ns : List Node} (hup : UpOK ns) (ui : Nat) {t : Nat}
    (ht : ns.length ≤ t) : iterF ns (getN ns ui).go_up t = [] :=
  iterF_empty_later
    (iterF_empty_of_measure ns hup ns.length _
      (frontMeasure_le_length (fun j hj => (hup ui j hj).1))) ht

/-- Nodes at or below the upper node's elevation are never visited by
the propagation frontier, hence gain nothing. -/
theorem gainOf_eq_zero {ns2 : List Node} (hup : UpOK ns2) {ui k : Nat} (di : Nat)
    (hk : (getN ns2 k).elevation ≤ (getN ns2 ui).elevation) : gainOf ns2 ui di k = 0 := by
  unfold gainOf
  have hz : ∀ t < ns2.length + 1, (if k ∈ iterF ns2 (getN ns2 ui).go_up t
      then (getN ns2 di).longest_path + 1 + 1 + t else 0) = 0 := by
    intro t _
    have hnot : k ∉ iterF ns2 (getN ns2 ui).go_up t := by
      intro hmem
      have := (iterF_elev hup ui t k hmem).2
      omega
    rw [if_neg hnot]
  rw [natSup_congr hz, natSup_zero_fun]

/-- The gain of a node decomposes over its descent successors: a direct
hit (when it is a `go_up` parent of the upper node) and the shifted gain
of each child. -/
theorem gainOf_rec {ns2 : List Node} (hup : UpOK ns2) (hconv : ConvOK ns2)
    (ui di k : Nat) :
    gainOf ns2 ui di k
      = max (if ui ∈ (getN ns2 k).go_down then (getN ns2 di).longest_path + 1 + 1 else 0)
          (listMax (((getN ns2 k).go_down).map (fun c => shiftS (gainOf ns2 ui di c)))) := by
  have hstep : ∀ t, t < ns2.length →
      (if k ∈ iterF ns2 (getN ns2 ui).go_up (t + 1)
        then (getN ns2 di).longest_path + 1 + 1 + (t + 1) else 0)
      = listMax (((getN ns2 k).go_down).map
          (fun c => shiftS (if c ∈ iterF ns2 (getN ns2 ui).go_up t
            then (getN ns2 di).longest_path + 1 + 1 + t else 0))) := by
    intro t _
    rw [if_congr (mem_iterF_succ hconv (getN ns2 ui).go_up t k) rfl rfl]
    rw [indicator_exists ((getN ns2 k).go_down)
      (fun c => c ∈ iterF ns2 (getN ns2 ui).go_up t)
      ((getN ns2 di).longest_path + 1 + 1 + (t + 1))]
    apply listMax_map_congr
    intro c _
    by_cases hcm : c ∈ iterF ns2 (getN ns2 ui).go_up t
    · rw [if_pos hcm, if_pos hcm]
      show _ = shiftS ((getN ns2 di).longest_path + 1 + 1 + t)
      unfold shiftS
      rw [if_neg (by omega)]
      omega
    · rw [if_neg hcm, if_neg hcm]
      rfl
  have hvan : ∀ c, ∀ t, ns2.length ≤ t →
      (if c ∈ iterF ns2 (getN ns2 ui).go_up t
        then (getN ns2 di).longest_path + 1 + 1 + t else 0) = 0 := by
    intro c t ht
    rw [iterF_up_vanish hup ui ht]
    simp
  have hhead : (if k ∈ iterF ns2 (getN ns2 ui).go_up 0
      then (getN ns2 di).longest_path + 1 + 1 + 0 else 0)
      = (if ui ∈ (getN ns2 k).go_down then (getN ns2 di).longest_path + 1 + 1 else 0) := by
    have h0 : k ∈ iterF ns2 (getN ns2 ui).go_up 0 ↔ ui ∈ (getN ns2 k).go_down := hconv ui k
    rw [if_congr h0 rfl rfl]
  have hpoint : ∀ c ∈ (getN ns2 k).go_down,
      natSup (fun t => shiftS (if c ∈ iterF ns2 (getN ns2 ui).go_up t
        then (getN ns2 di).longest_path + 1 + 1 + t else 0)) ns2.length
      = shiftS (gainOf ns2 ui di c) := by
    intro c _
    refine (natSup_shiftS _ _).trans (congrArg shiftS ?_)
    exact natSup_stable (hvan c) (le_refl _) (Nat.le_succ _)
  have htail : natSup (fun t =>
      (if k ∈ iterF ns2 (getN ns2 ui).go_up (t + 1)
        then (getN ns2 di).longest_path + 1 + 1 + (t + 1) else 0)) ns2.length
      = listMax (((getN ns2 k).go_down).map (fun c => shiftS (gainOf ns2 ui di c))) := by
    refine (natSup_congr hstep).trans (Eq.trans ?_ (listMax_map_congr hpoint))
    exact natSup_listMax
      (fun c t => shiftS (if c ∈ iterF ns2 (getN ns2 ui).go_up t
        then (getN ns2 di).longest_path + 1 + 1 + t else 0))
      ((getN ns2 k).go_down) ns2.length
  show natSup _ (ns2.length + 1) = _
  rw [natSup_succ_bot]
  exact congrArg₂ max hhead htail

/-! ### The longest-path invariant and its preservation -/

theorem listMax_singleton (a : Nat) : listMax [a] = a := by
  unfold listMax
  simp

theorem assembleAux (P : Prop) [Decidable P] (lpk lM LG A : Nat) (hIk : lpk = 1 + lM) :
    max lpk (max (if P then A + 1 + 1 else 0) (shiftS LG))
      = 1 + max (max lM (if P then A + 1 else 0)) LG := by
  unfold shiftS
  by_cases hP : P <;> by_cases hLG : LG = 0 <;> simp [hP, hLG] <;> omega

theorem UpOK_edgesAdded {ns : List Node} {ui di : Nat} (hup : UpOK ns)
    (hu : ui < ns.length) (hd : di < ns.length) (hne : ui ≠ di)
    (helev : (getN ns di).elevation < (getN ns ui).elevation) :
    UpOK (edgesAdded ns ui di) := by
  intro j m hm
  rw [length_edgesAdded, (fields_edgesAdded ns ui di j).2.1, (fields_edgesAdded ns ui di m).2.1]
  by_cases hj : j = di
  · subst hj
    rw [go_up_edgesAdded_self hd hne] at hm
    rcases List.mem_append.mp hm with hm | hm
    · exact hup j m hm
    · have hmu : m = ui := by simpa using hm
      subst hmu
      exact ⟨hu, helev⟩
  · rw [go_up_edgesAdded_other hj] at hm
    exact hup j m hm

theorem DownOK_edgesAdded {ns : List Node} {ui di : Nat} (hdown : DownOK ns)
    (hu : ui < ns.length) (hd : di < ns.length) (hne : ui ≠ di)
    (helev : (getN ns di).elevation < (getN ns ui).elevation) :
    DownOK (edgesAdded ns ui di) := by
  intro j c hc
  rw [length_edgesAdded, (fields_edgesAdded ns ui di j).2.1, (fields_edgesAdded ns ui di c).2.1]
  by_cases hj : j = ui
  · subst hj
    rw [go_down_edgesAdded_self hu hne] at hc
    rcases List.mem_append.mp hc with hc | hc
    · exact hdown j c hc
    · have hcd : c = di := by simpa using hc
      subst hcd
      exact ⟨hd, helev⟩
  · rw [go_down_edgesAdded_other hj] at hc
    exact hdown j c hc

theorem ConvOK_edgesAdded {ns : List Node} {ui di : Nat} (hconv : ConvOK ns)
    (hu : ui < ns.length) (hd : di < ns.length) (hne : ui ≠ di) :
    ConvOK (edgesAdded ns ui di) := by
  intro j k
  have hLup : (getN (edgesAdded ns ui di) j).go_up
      = if j = di then (getN ns di).go_up ++ [ui] else (getN ns j).go_up := by
    by_cases hj : j = di
    · subst hj; rw [go_up_edgesAdded_self hd hne, if_pos rfl]
    · rw [go_up_edgesAdded_other hj, if_neg hj]
  have hLdown : (getN (edgesAdded ns ui di) k).go_down
      = if k = ui then (getN ns ui).go_down ++ [di] else (getN ns k).go_down := by
    by_cases hk : k = ui
    · subst hk; rw [go_down_edgesAdded_self hu hne, if_pos rfl]
    · rw [go_down_edgesAdded_other hk, if_neg hk]
  rw [hLup, hLdown]
  by_cases hj : j = di <;> by_cases hk : k = ui
  · rw [if_pos hj, if_pos hk, hj, hk]
    simp [List.mem_append]
  · rw [if_pos hj, if_neg hk, hj]
    simp [List.mem_append, hk, hconv di k]
  · rw [if_neg hj, if_pos hk, hk]
    simp [List.mem_append, hj, hconv j ui]
  · rw [if_neg hj, if_neg hk]
    exact hconv j k

theorem go_down_eq {s s' : SkiMap} {ui di : Nat} (h : go_down s ui di = some s') :
    ∃ ns4, lpUpdate (edgesAdded s.nodes ui di) ui di = some ns4 ∧
      s' = { s with nodes := ns4, summits := summitUpdate s.summits ns4 ui di } := by
  simp only [go_down] at h
  split at h
  · cases h
  · rename_i ns4 heq
    injection h with h
    exact ⟨ns4, heq, h.symm⟩

/-- `_go_down` preserves the `longest_path` invariant. -/
theorem go_down_preserves_Inv {s s' : SkiMap} {ui di : Nat}
    (hdown : DownOK s.nodes) (hup : UpOK s.nodes) (hconv : ConvOK s.nodes)
    (hinv : LpInv s.nodes)
    (hu : ui < s.nodes.length) (hd : di < s.nodes.length)
    (helev : (getN s.nodes di).elevation < (getN s.nodes ui).elevation)
    (h : go_down s ui di = some s') : LpInv s'.nodes := by
  have hne : ui ≠ di := by
    intro hh
    rw [hh] at helev
    exact absurd helev (lt_irrefl _)
  obtain ⟨ns4, hlpu, hs'⟩ := go_down_eq h
  rw [hs']
  show LpInv ns4
  have hlen2 := length_edgesAdded s.nodes ui di
  have hu2 : ui < (edgesAdded s.nodes ui di).length := by rw [hlen2]; exact hu
  have hd2 : di < (edgesAdded s.nodes ui di).length := by rw [hlen2]; exact hd
  obtain ⟨hskel4, hnegE, hposE⟩ := lpUpdate_spec hu2 hlpu
  have hup2 : UpOK (edgesAdded s.nodes ui di) := UpOK_edgesAdded hup hu hd hne helev
  have hconv2 : ConvOK (edgesAdded s.nodes ui di) := ConvOK_edgesAdded hconv hu hd hne
  have hdown2 : DownOK (edgesAdded s.nodes ui di) := DownOK_edgesAdded hdown hu hd hne helev
  have hlpP : ∀ k, (getN (edgesAdded s.nodes ui di) k).longest_path
      = (getN s.nodes k).longest_path := fun k => (fields_edgesAdded s.nodes ui di k).1
  have helevP : ∀ k, (getN (edgesAdded s.nodes ui di) k).elevation
      = (getN s.nodes k).elevation := fun k => (fields_edgesAdded s.nodes ui di k).2.1
  have hlen4 : ns4.length = s.nodes.length := by rw [hskel4.1, hlen2]
  have hgd4 : ∀ k, (getN ns4 k).go_down = (getN (edgesAdded s.nodes ui di) k).go_down :=
    fun k => (hskel4.2 k).2.2.2.2.1
  by_cases hc : (getN (edgesAdded s.nodes ui di) di).longest_path + 1
      > (getN (edgesAdded s.nodes ui di) ui).longest_path
  · -- the propagation branch
    have hposk := hposE hc
    intro k hk4
    have hk : k < s.nodes.length := by rw [hlen4] at hk4; exact hk4
    have hk2 : k < (edgesAdded s.nodes ui di).length := by rw [hlen2]; exact hk
    by_cases hkui : k = ui
    · subst hkui
      have hgui : gainOf (edgesAdded s.nodes k di) k di k = 0 :=
        gainOf_eq_zero hup2 di (le_refl _)
      have hlpu4 : (getN ns4 k).longest_path
          = (getN (edgesAdded s.nodes k di) di).longest_path + 1 := by
        rw [hposk k hu2, if_pos rfl, hgui]
        omega
      constructor
      · intro hgd
        rw [hgd4 k, go_down_edgesAdded_self hu hne] at hgd
        simp at hgd
      · intro _
        rw [hlpu4]
        have hCD4 : (getN ns4 k).go_down = (getN s.nodes k).go_down ++ [di] := by
          rw [hgd4 k, go_down_edgesAdded_self hu hne]
        have hchild4 : childLP ns4 k
            = max (listMax ((getN s.nodes k).go_down.map
                (fun c => (getN s.nodes c).longest_path)))
              ((getN s.nodes di).longest_path) := by
          unfold childLP
          rw [hCD4, List.map_append, listMax_append]
          congr 1
          · apply listMax_map_congr
            intro c hcmem
            have hcd2 : c ∈ (getN (edgesAdded s.nodes k di) k).go_down := by
              rw [go_down_edgesAdded_self hu hne]
              exact List.mem_append_left _ hcmem
            obtain ⟨hclen, hcel⟩ := hdown2 k c hcd2
            have hcui : c ≠ k := by
              intro hcu
              rw [hcu] at hcel
              exact absurd hcel (lt_irrefl _)
            have hgc : gainOf (edgesAdded s.nodes k di) k di c = 0 :=
              gainOf_eq_zero hup2 di (le_of_lt hcel)
            rw [hposk c hclen, if_neg hcui, hgc, hlpP c]
            omega
          · rw [List.map_cons, List.map_nil, listMax_singleton]
            have hdui : di ≠ k := Ne.symm hne
            have hgd0 : gainOf (edgesAdded s.nodes k di) k di di = 0 :=
              gainOf_eq_zero hup2 di
                (by rw [helevP di, helevP k]; exact le_of_lt helev)
            rw [hposk di hd2, if_neg hdui, hgd0, hlpP di]
            omega
        rw [hchild4]
        have e1 := hlpP di
        have e2 := hlpP k
        by_cases hold : (getN s.nodes k).go_down = []
        · have hIu1 := (hinv k hk).1 hold
          rw [hold, List.map_nil, listMax_nil]
          omega
        · have hIu2 := (hinv k hk).2 hold
          unfold childLP at hIu2
          omega
    · -- a node other than the upper endpoint
      have hgdk2 : (getN (edgesAdded s.nodes ui di) k).go_down = (getN s.nodes k).go_down :=
        go_down_edgesAdded_other hkui
      have hgdk4 : (getN ns4 k).go_down = (getN s.nodes k).go_down := by
        rw [hgd4 k, hgdk2]
      have hlp4k : (getN ns4 k).longest_path
          = max ((getN (edgesAdded s.nodes ui di) k).longest_path)
              (gainOf (edgesAdded s.nodes ui di) ui di k) := by
        rw [hposk k hk2, if_neg hkui]
      have grec := gainOf_rec hup2 hconv2 ui di k
      rw [hgdk2] at grec
      by_cases hCe : (getN s.nodes k).go_down = []
      · constructor
        · intro _
          have hg0 : gainOf (edgesAdded s.nodes ui di) ui di k = 0 := by
            rw [grec, hCe]
            simp [listMax]
          have hIk1 := (hinv k hk).1 hCe
          rw [hlp4k, hg0, hlpP k]
          omega
        · intro hgd
          rw [hgdk4] at hgd
          exact absurd hCe hgd
      · constructor
        · intro hgd
          rw [hgdk4] at hgd
          exact absurd hgd hCe
        · intro _
          rw [hlp4k]
          have hcS : (getN (edgesAdded s.nodes ui di) di).longest_path + 1
              > (getN s.nodes ui).longest_path := by
            have := hlpP ui
            omega
          have hchild4 : childLP ns4 k
              = max (max (listMax ((getN s.nodes k).go_down.map
                    (fun c => (getN s.nodes c).longest_path)))
                  (if ui ∈ (getN s.nodes k).go_down
                    then (getN (edgesAdded s.nodes ui di) di).longest_path + 1 else 0))
                (listMax ((getN s.nodes k).go_down.map
                  (fun c => gainOf (edgesAdded s.nodes ui di) ui di c))) := by
            unfold childLP
            rw [hgdk4]
            have hpt : ∀ c ∈ (getN s.nodes k).go_down,
                (getN ns4 c).longest_path
                = max (max ((getN s.nodes c).longest_path)
                    (if c = ui then (getN (edgesAdded s.nodes ui di) di).longest_path + 1 else 0))
                  (gainOf (edgesAdded s.nodes ui di) ui di c) := by
              intro c hcm
              have hcm2 : c ∈ (getN (edgesAdded s.nodes ui di) k).go_down := by
                rw [hgdk2]
                exact hcm
              have hclen := (hdown2 k c hcm2).1
              rw [hposk c hclen]
              congr 1
              by_cases hcu : c = ui
              · rw [if_pos hcu, if_pos hcu, hcu]
                have e1 := hlpP ui
                omega
              · rw [if_neg hcu, if_neg hcu, hlpP c]
                omega
            rw [listMax_map_congr hpt, listMax_map_max, listMax_map_max]
            congr 1
            congr 1
            exact listMax_indicator _ ui _
          rw [hchild4, grec, listMax_map_shiftS]
          have hIk : (getN (edgesAdded s.nodes ui di) k).longest_path
              = 1 + listMax ((getN s.nodes k).go_down.map
                  (fun c => (getN s.nodes c).longest_path)) := by
            rw [hlpP k]
            exact (hinv k hk).2 hCe
          exact assembleAux _ _ _ _ _ hIk
  · -- no `longest_path` change: only the new edge is appended
    rw [hnegE hc]
    intro k hk2
    have hk : k < s.nodes.length := by rw [hlen2] at hk2; exact hk2
    by_cases hkui : k = ui
    · subst hkui
      constructor
      · intro hgd
        rw [go_down_edgesAdded_self hu hne] at hgd
        simp at hgd
      · intro _
        have hCD : (getN (edgesAdded s.nodes k di) k).go_down
            = (getN s.nodes k).go_down ++ [di] := go_down_edgesAdded_self hu hne
        have hchild : childLP (edgesAdded s.nodes k di) k
            = max (listMax ((getN s.nodes k).go_down.map
                (fun c => (getN s.nodes c).longest_path)))
              ((getN s.nodes di).longest_path) := by
          unfold childLP
          rw [hCD, List.map_append, listMax_append]
          congr 1
          · exact listMax_map_congr (fun c _ => hlpP c)
          · rw [List.map_cons, List.map_nil, listMax_singleton]
            exact hlpP di
        rw [hchild, hlpP k]
        have e1 := hlpP di
        have e2 := hlpP k
        by_cases hold : (getN s.nodes k).go_down = []
        · exfalso
          have hIu1 := (hinv k hk).1 hold
          omega
        · have hIu2 := (hinv k hk).2 hold
          unfold childLP at hIu2
          omega
    · have hgdk : (getN (edgesAdded s.nodes ui di) k).go_down = (getN s.nodes k).go_down :=
        go_down_edgesAdded_other hkui
      have hchild : childLP (edgesAdded s.nodes ui di) k = childLP s.nodes k := by
        unfold childLP
        rw [hgdk]
        exact listMax_map_congr (fun c _ => hlpP c)
      constructor
      · intro hgd
        rw [hgdk] at hgd
        rw [hlpP k]
        exact (hinv k hk).1 hgd
      · intro hgd
        rw [hgdk] at hgd
        rw [hlpP k, hchild]
        exact (hinv k hk).2 hgd

theorem go_down_preserves_SummitInv {s s' : SkiMap} {ui di : Nat}
    (hs : SummitInv s) (hu : ui < s.nodes.length) (hd : di < s.nodes.length)
    (hne : ui ≠ di) (h : go_down s ui di = some s') : SummitInv s' := by
  obtain ⟨ns4, hlpu, hs'⟩ := go_down_eq h
  have hu2 : ui < (edgesAdded s.nodes ui di).length := by rw [length_edgesAdded]; exact hu
  have hskel4 := (lpUpdate_spec hu2 hlpu).1
  have hlen4 : ns4.length = s.nodes.length := by rw [hskel4.1, length_edgesAdded]
  have hgd4 : ∀ k, (getN ns4 k).go_down = (getN (edgesAdded s.nodes ui di) k).go_down :=
    fun k => (hskel4.2 k).2.2.2.2.1
  have hgu4 : ∀ k, (getN ns4 k).go_up = (getN (edgesAdded s.nodes ui di) k).go_up :=
    fun k => (hskel4.2 k).2.2.2.2.2
  have gdu : (getN ns4 ui).go_down = (getN s.nodes ui).go_down ++ [di] := by
    rw [hgd4 ui, go_down_edgesAdded_self hu hne]
  have gdo : ∀ k, k ≠ ui → (getN ns4 k).go_down = (getN s.nodes k).go_down := by
    intro k hk
    rw [hgd4 k, go_down_edgesAdded_other hk]
  have guu : (getN ns4 di).go_up = (getN s.nodes di).go_up ++ [ui] := by
    rw [hgu4 di, go_up_edgesAdded_self hd hne]
  have guo : ∀ k, k ≠ di → (getN ns4 k).go_up = (getN s.nodes k).go_up := by
    intro k hk
    rw [hgu4 k, go_up_edgesAdded_other hk]
  rw [hs']
  show summitUpdate s.summits ns4 ui di
      = (Finset.range ns4.length).filter
          (fun k => (getN ns4 k).go_up = [] ∧ (getN ns4 k).go_down ≠ [])
  unfold SummitInv at hs
  apply Finset.ext
  intro a
  rw [Finset.mem_filter, Finset.mem_range, hlen4]
  unfold summitUpdate
  by_cases ha_ui : a = ui
  · subst ha_ui
    have hRHS : ((a < s.nodes.length ∧ (getN ns4 a).go_up = [] ∧ (getN ns4 a).go_down ≠ [])
        ↔ (getN s.nodes a).go_up = []) := by
      rw [guo a hne, gdu]
      simp [hu]
    rw [hRHS]
    by_cases hcond2 : (getN ns4 a).go_down.length = 1 ∧ (getN ns4 a).go_up = []
    · rw [if_pos hcond2]
      have hupe : (getN s.nodes a).go_up = [] := by
        rw [← guo a hne]
        exact hcond2.2
      simp [Finset.mem_insert, hupe]
    · rw [if_neg hcond2]
      have hmem : (a ∈ (if 0 < (getN ns4 di).go_down.length
          then s.summits.erase di else s.summits)) ↔ a ∈ s.summits := by
        by_cases hc1 : 0 < (getN ns4 di).go_down.length
        · rw [if_pos hc1]
          constructor
          · intro hx
            exact (Finset.mem_erase.mp hx).2
          · intro hx
            exact Finset.mem_erase.mpr ⟨hne, hx⟩
        · rw [if_neg hc1]
      rw [hmem, hs, Finset.mem_filter, Finset.mem_range]
      constructor
      · rintro ⟨-, h1, -⟩
        exact h1
      · intro h1
        refine ⟨hu, h1, ?_⟩
        have hup4 : (getN ns4 a).go_up = [] := by
          rw [guo a hne]
          exact h1
        have hlen1 : (getN ns4 a).go_down.length ≠ 1 := by
          intro hl
          exact hcond2 ⟨hl, hup4⟩
        rw [gdu, List.length_append] at hlen1
        intro hnil
        rw [hnil] at hlen1
        simp at hlen1
  · by_cases ha_di : a = di
    · subst ha_di
      have hRHS : ¬(a < s.nodes.length ∧ (getN ns4 a).go_up = [] ∧ (getN ns4 a).go_down ≠ []) := by
        rintro ⟨-, h1, -⟩
        rw [guu] at h1
        simp at h1
      refine iff_of_false ?_ hRHS
      have hnotS1 : a ∉ (if 0 < (getN ns4 a).go_down.length
          then s.summits.erase a else s.summits) := by
        by_cases hc1 : 0 < (getN ns4 a).go_down.length
        · rw [if_pos hc1]
          exact Finset.not_mem_erase a s.summits
        · rw [if_neg hc1]
          rw [hs, Finset.mem_filter]
          rintro ⟨-, -, h2⟩
          apply h2
          rw [← gdo a ha_ui]
          exact List.length_eq_zero.mp (by omega)
      intro hmem
      by_cases hcond2 : (getN ns4 ui).go_down.length = 1 ∧ (getN ns4 ui).go_up = []
      · rw [if_pos hcond2] at hmem
        rcases Finset.mem_insert.mp hmem with h1 | h1
        · exact ha_ui h1
        · exact hnotS1 h1
      · rw [if_neg hcond2] at hmem
        exact hnotS1 hmem
    · have hgu : (getN ns4 a).go_up = (getN s.nodes a).go_up := guo a ha_di
      have hgd : (getN ns4 a).go_down = (getN s.nodes a).go_down := gdo a ha_ui
      rw [hgu, hgd]
      by_cases hcond2 : (getN ns4 ui).go_down.length = 1 ∧ (getN ns4 ui).go_up = []
      · rw [if_pos hcond2, Finset.mem_insert]
        by_cases hcond1 : 0 < (getN ns4 di).go_down.length
        · rw [if_pos hcond1]
          simp [Finset.mem_erase, ha_ui, ha_di, hs, Finset.mem_filter, Finset.mem_range]
        · rw [if_neg hcond1]
          simp [ha_ui, hs, Finset.mem_filter, Finset.mem_range]
      · rw [if_neg hcond2]
        by_cases hcond1 : 0 < (getN ns4 di).go_down.length
        · rw [if_pos hcond1]
          simp [Finset.mem_erase, ha_di, hs, Finset.mem_filter, Finset.mem_range]
        · rw [if_neg hcond1]
          simp [hs, Finset.mem_filter, Finset.mem_range]

/-! ### Monotonicity, totality and frame of one insertion -/

/-- `longest_path` never decreases across a successful `_go_down`. -/
theorem go_down_mono {s s' : SkiMap} {ui di : Nat}
    (h : go_down s ui di = some s') :
    ∀ k, (getN s.nodes k).longest_path ≤ (getN s'.nodes k).longest_path := by
  obtain ⟨ns4, hlpu, hs'⟩ := go_down_eq h
  rw [hs']
  intro k
  show (getN s.nodes k).longest_path ≤ (getN ns4 k).longest_path
  by_cases hk : k < s.nodes.length
  · by_cases hui : ui < s.nodes.length
    · have hu2 : ui < (edgesAdded s.nodes ui di).length := by
        rw [length_edgesAdded]; exact hui
      have hk2 : k < (edgesAdded s.nodes ui di).length := by
        rw [length_edgesAdded]; exact hk
      obtain ⟨hskel4, hnegE, hposE⟩ := lpUpdate_spec hu2 hlpu
      have e := (fields_edgesAdded s.nodes ui di k).1
      by_cases hc : (getN (edgesAdded s.nodes ui di) di).longest_path + 1
          > (getN (edgesAdded s.nodes ui di) ui).longest_path
      · rw [hposE hc k hk2]
        by_cases hku : k = ui
        · rw [if_pos hku, hku]
          have e2 := (fields_edgesAdded s.nodes ui di ui).1
          omega
        · rw [if_neg hku]
          omega
      · rw [hnegE hc, e]
    · -- the upper index is out of range: nothing is propagated beyond a
      -- no-op arena, and `lpUpdate` can only raise values anyway
      have hk2 : k < (edgesAdded s.nodes ui di).length := by
        rw [length_edgesAdded]; exact hk
      have e := (fields_edgesAdded s.nodes ui di k).1
      by_cases hc : (getN (edgesAdded s.nodes ui di) di).longest_path + 1
          > (getN (edgesAdded s.nodes ui di) ui).longest_path
      · rw [lpUpdate_pos hc] at hlpu
        obtain ⟨hskel, hlp⟩ := propagate_spec _ _ _ _ _ _ hlpu
        have hk3 : k < (modifyN (edgesAdded s.nodes ui di) ui
            (fun n => { n with longest_path
              := (getN (edgesAdded s.nodes ui di) di).longest_path + 1 })).length := by
          rw [length_modifyN]; exact hk2
        have h1 := hlp k hk3
        have hmid : (getN (modifyN (edgesAdded s.nodes ui di) ui
            (fun n => { n with longest_path
              := (getN (edgesAdded s.nodes ui di) di).longest_path + 1 })) k).longest_path
            = (getN (edgesAdded s.nodes ui di) k).longest_path := by
          rw [getN_modifyN]
          split
          · rename_i hcase
            exfalso
            rw [length_edgesAdded] at hcase
            exact hui hcase.2
          · rfl
        rw [h1, hmid]
        omega
      · rw [lpUpdate_neg hc] at hlpu
        injection hlpu with hlpu
        rw [← hlpu, e]
  · have h1 : getN s.nodes k = dNode := getN_of_length_le (le_of_not_lt hk)
    have hlen4 : ns4.length = s.nodes.length := by
      by_cases hc : (getN (edgesAdded s.nodes ui di) di).longest_path + 1
          > (getN (edgesAdded s.nodes ui di) ui).longest_path
      · rw [lpUpdate_pos hc] at hlpu
        obtain ⟨hskel, -⟩ := propagate_spec _ _ _ _ _ _ hlpu
        rw [hskel.1, length_modifyN, length_edgesAdded]
      · rw [lpUpdate_neg hc] at hlpu
        injection hlpu with hlpu
        rw [← hlpu, length_edgesAdded]
    have h2 : getN ns4 k = dNode := getN_of_length_le (by rw [hlen4]; omega)
    rw [h1, h2]

/-- `_go_down` always returns (the fuel suffices) when ascent references
are well formed and the new edge descends. -/
theorem go_down_total {s : SkiMap} {ui di : Nat} (hup : UpOK s.nodes)
    (hu : ui < s.nodes.length) (hd : di < s.nodes.length)
    (helev : (getN s.nodes di).elevation < (getN s.nodes ui).elevation) :
    ∃ s', go_down s ui di = some s' := by
  have hne : ui ≠ di := by
    intro hh
    rw [hh] at helev
    exact absurd helev (lt_irrefl _)
  have hup2 : UpOK (edgesAdded s.nodes ui di) := UpOK_edgesAdded hup hu hd hne helev
  obtain ⟨ns4, h4⟩ := lpUpdate_isSome hup2 ui di
  refine ⟨{ s with nodes := ns4, summits := summitUpdate s.summits ns4 ui di }, ?_⟩
  simp only [go_down]
  rw [h4]

/-- Frame of one insertion: the lower node's `longest_path` and that of
every node not ascent-reachable from the upper node are unchanged; the
only edge-list mutations are the two appends; the summit set changes at
most at `ui` and `di`. -/
theorem go_down_frame {s s' : SkiMap} {ui di : Nat} (hup : UpOK s.nodes)
    (hu : ui < s.nodes.length) (hd : di < s.nodes.length)
    (helev : (getN s.nodes di).elevation < (getN s.nodes ui).elevation)
    (h : go_down s ui di = some s') :
    (getN s'.nodes di).longest_path = (getN s.nodes di).longest_path ∧
    (∀ k, k < s.nodes.length → k ≠ ui → ¬ AscendsTo s'.nodes ui k →
      (getN s'.nodes k).longest_path = (getN s.nodes k).longest_path) ∧
    (getN s'.nodes ui).go_down = (getN s.nodes ui).go_down ++ [di] ∧
    (getN s'.nodes di).go_up = (getN s.nodes di).go_up ++ [ui] ∧
    (getN s'.nodes ui).go_up = (getN s.nodes ui).go_up ∧
    (getN s'.nodes di).go_down = (getN s.nodes di).go_down ∧
    (∀ k, k ≠ ui → k ≠ di → (getN s'.nodes k).go_down = (getN s.nodes k).go_down ∧
      (getN s'.nodes k).go_up = (getN s.nodes k).go_up) ∧
    (∀ k, k ≠ ui → k ≠ di → (k ∈ s'.summits ↔ k ∈ s.summits)) := by
  have hne : ui ≠ di := by
    intro hh
    rw [hh] at helev
    exact absurd helev (lt_irrefl _)
  obtain ⟨ns4, hlpu, hs'⟩ := go_down_eq h
  have hu2 : ui < (edgesAdded s.nodes ui di).length := by
    rw [length_edgesAdded]; exact hu
  obtain ⟨hskel4, hnegE, hposE⟩ := lpUpdate_spec hu2 hlpu
  have hup2 : UpOK (edgesAdded s.nodes ui di) := UpOK_edgesAdded hup hu hd hne helev
  have hgd4 : ∀ k, (getN ns4 k).go_down = (getN (edgesAdded s.nodes ui di) k).go_down :=
    fun k => (hskel4.2 k).2.2.2.2.1
  have hgu4 : ∀ k, (getN ns4 k).go_up = (getN (edgesAdded s.nodes ui di) k).go_up :=
    fun k => (hskel4.2 k).2.2.2.2.2
  have hlpC : ∀ k, k < s.nodes.length → k ≠ ui →
      (¬ AscendsTo (edgesAdded s.nodes ui di) ui k) →
      (getN ns4 k).longest_path = (getN s.nodes k).longest_path := by
    intro k hk hku hreach
    have hk2 : k < (edgesAdded s.nodes ui di).length := by
      rw [length_edgesAdded]; exact hk
    have e := (fields_edgesAdded s.nodes ui di k).1
    by_cases hc : (getN (edgesAdded s.nodes ui di) di).longest_path + 1
        > (getN (edgesAdded s.nodes ui di) ui).longest_path
    · rw [hposE hc k hk2, if_neg hku]
      have hgain : gainOf (edgesAdded s.nodes ui di) ui di k = 0 := by
        unfold gainOf
        have hz : ∀ t < (edgesAdded s.nodes ui di).length + 1,
            (if k ∈ iterF (edgesAdded s.nodes ui di)
              (getN (edgesAdded s.nodes ui di) ui).go_up t
            then (getN (edgesAdded s.nodes ui di) di).longest_path + 1 + 1 + t else 0) = 0 := by
          intro t _
          rw [if_neg (fun hmem => hreach ⟨t, hmem⟩)]
        rw [natSup_congr hz, natSup_zero_fun]
      rw [hgain, e]
      omega
    · rw [hnegE hc, e]
  have hskelIter : ∀ t, iterF ns4 (getN ns4 ui).go_up t
      = iterF (edgesAdded s.nodes ui di) (getN (edgesAdded s.nodes ui di) ui).go_up t := by
    intro t
    rw [hgu4 ui]
    exact iterF_congr hskel4 _ t
  have hreachEq : ∀ k, AscendsTo ns4 ui k ↔ AscendsTo (edgesAdded s.nodes ui di) ui k := by
    intro k
    unfold AscendsTo
    constructor
    · rintro ⟨t, ht⟩
      exact ⟨t, by rw [← hskelIter t]; exact ht⟩
    · rintro ⟨t, ht⟩
      exact ⟨t, by rw [hskelIter t]; exact ht⟩
  rw [hs']
  refine ⟨?_, ?_, ?_, ?_, ?_, ?_, ?_, ?_⟩
  · show (getN ns4 di).longest_path = _
    apply hlpC di hd (Ne.symm hne)
    intro hreach
    obtain ⟨t, ht⟩ := hreach
    have := (iterF_elev hup2 ui t di ht).2
    rw [(fields_edgesAdded s.nodes ui di di).2.1, (fields_edgesAdded s.nodes ui di ui).2.1] at this
    omega
  · intro k hk hku hreach
    exact hlpC k hk hku (fun hr => hreach ((hreachEq k).mpr hr))
  · show (getN ns4 ui).go_down = _
    rw [hgd4 ui, go_down_edgesAdded_self hu hne]
  · show (getN ns4 di).go_up = _
    rw [hgu4 di, go_up_edgesAdded_self hd hne]
  · show (getN ns4 ui).go_up = _
    rw [hgu4 ui, go_up_edgesAdded_other hne]
  · show (getN ns4 di).go_down = _
    rw [hgd4 di, go_down_edgesAdded_other (Ne.symm hne)]
  · intro k hku hkd
    constructor
    · show (getN ns4 k).go_down = _
      rw [hgd4 k, go_down_edgesAdded_other hku]
    · show (getN ns4 k).go_up = _
      rw [hgu4 k, go_up_edgesAdded_other hkd]
  · intro k hku hkd
    show k ∈ summitUpdate s.summits ns4 ui di ↔ k ∈ s.summits
    unfold summitUpdate
    by_cases hcond2 : (getN ns4 ui).go_down.length = 1 ∧ (getN ns4 ui).go_up = [] <;>
      by_cases hcond1 : 0 < (getN ns4 di).go_down.length
    · rw [if_pos hcond2, if_pos hcond1, Finset.mem_insert, Finset.mem_erase]
      simp [hku, hkd]
    · rw [if_pos hcond2, if_neg hcond1, Finset.mem_insert]
      simp [hku]
    · rw [if_neg hcond2, if_pos hcond1, Finset.mem_erase]
      simp [hkd]
    · rw [if_neg hcond2, if_neg hcond1]

/-! ### Preservation wrappers and the initial state -/

theorem lpUpdate_skel {ns2 ns4 : List Node} {ui di : Nat}
    (h : lpUpdate ns2 ui di = some ns4) : SameSkel ns4 ns2 := by
  by_cases hc : (getN ns2 di).longest_path + 1 > (getN ns2 ui).longest_path
  · rw [lpUpdate_pos hc] at h
    exact (propagate_spec _ _ _ _ _ _ h).1.trans (SameSkel_setLP ns2 ui _)
  · rw [lpUpdate_neg hc] at h
    injection h with h
    subst h
    exact SameSkel.refl _

theorem DownOK_congr {ns ms : List Node} (h : SameSkel ns ms) (hm : DownOK ms) : DownOK ns := by
  intro j c hc
  rw [(h.2 j).2.2.2.2.1] at hc
  obtain ⟨h1, h2⟩ := hm j c hc
  refine ⟨by rw [h.1]; exact h1, ?_⟩
  rw [(h.2 j).2.2.2.1, (h.2 c).2.2.2.1]
  exact h2

theorem ConvOK_congr {ns ms : List Node} (h : SameSkel ns ms) (hm : ConvOK ms) : ConvOK ns := by
  intro j k
  rw [(h.2 j).2.2.2.2.2, (h.2 k).2.2.2.2.1]
  exact hm j k

theorem go_down_fields {s s' : SkiMap} {ui di : Nat} (h : go_down s ui di = some s') :
    s'.nodes.length = s.nodes.length ∧ s'.width = s.width ∧ s'.height = s.height ∧
    ∀ k, (getN s'.nodes k).i = (getN s.nodes k).i ∧
      (getN s'.nodes k).x = (getN s.nodes k).x ∧
      (getN s'.nodes k).y = (getN s.nodes k).y ∧
      (getN s'.nodes k).elevation = (getN s.nodes k).elevation := by
  obtain ⟨ns4, hlpu, hs'⟩ := go_down_eq h
  have hskel4 := lpUpdate_skel hlpu
  rw [hs']
  refine ⟨by rw [hskel4.1, length_edgesAdded], rfl, rfl, fun k => ?_⟩
  obtain ⟨f1, f2, f3, f4, -, -⟩ := hskel4.2 k
  obtain ⟨-, g4, g1, g2, g3⟩ := fields_edgesAdded s.nodes ui di k
  exact ⟨f1.trans g1, f2.trans g2, f3.trans g3, f4.trans g4⟩

theorem go_down_preserves_WF {s s' : SkiMap} {ui di : Nat}
    (hdown : DownOK s.nodes) (hup : UpOK s.nodes) (hconv : ConvOK s.nodes)
    (hu : ui < s.nodes.length) (hd : di < s.nodes.length)
    (helev : (getN s.nodes di).elevation < (getN s.nodes ui).elevation)
    (h : go_down s ui di = some s') :
    DownOK s'.nodes ∧ UpOK s'.nodes ∧ ConvOK s'.nodes := by
  have hne : ui ≠ di := by
    intro hh
    rw [hh] at helev
    exact absurd helev (lt_irrefl _)
  obtain ⟨ns4, hlpu, hs'⟩ := go_down_eq h
  have hskel4 := lpUpdate_skel hlpu
  rw [hs']
  exact ⟨DownOK_congr hskel4 (DownOK_edgesAdded hdown hu hd hne helev),
    UpOK_congr hskel4 (UpOK_edgesAdded hup hu hd hne helev),
    ConvOK_congr hskel4 (ConvOK_edgesAdded hconv hu hd hne)⟩

theorem length_initNodes (rows : List (List Int)) (w h : Nat) :
    (initNodes rows w h).length = w * h := by
  unfold initNodes
  rw [List.length_map, List.length_range]

theorem getN_initNodes {rows : List (List Int)} {w h k : Nat} (hk : k < w * h) :
    getN (initNodes rows w h) k
      = ⟨k, k % w, k / w, elevAt rows (k % w) (k / w), [], [], 0⟩ := by
  unfold getN initNodes
  rw [List.getD_eq_getElem?_getD, List.getElem?_map, List.getElem?_range hk]
  rfl

theorem runEvents_append (l1 l2 : List (Nat × Nat)) : ∀ s : SkiMap,
    runEvents s (l1 ++ l2)
      = match runEvents s l1 with
        | none => none
        | some s' => runEvents s' l2 := by
  induction l1 with
  | nil => intro s; rfl
  | cons e l1 ih =>
    intro s
    have hR : runEvents s (e :: l1) = match go_down s e.1 e.2 with
      | none => none
      | some s' => runEvents s' l1 := rfl
    rw [hR]
    show (match go_down s e.1 e.2 with
      | none => none
      | some s' => runEvents s' (l1 ++ l2)) = _
    cases go_down s e.1 e.2 with
    | none => rfl
    | some s' => exact ih s'

theorem cell_index_lt {w h x y : Nat} (hx : x < w) (hy : y < h) : y * w + x < w * h := by
  have h1 : y * w + x < (y + 1) * w := by
    rw [Nat.succ_mul]
    omega
  have h2 : (y + 1) * w ≤ h * w := Nat.mul_le_mul_right w hy
  rw [Nat.mul_comm w h]
  omega

theorem cell_mod {w x y : Nat} (hx : x < w) : (y * w + x) % w = x := by
  rw [Nat.mul_comm y w, Nat.mul_add_mod]
  exact Nat.mod_eq_of_lt hx

theorem cell_div {w x y : Nat} (hx : x < w) : (y * w + x) / w = y := by
  rw [Nat.mul_comm y w, Nat.mul_add_div (by omega : 0 < w), Nat.div_eq_of_lt hx]
  omega

/-- Every edge event of the scan joins two in-range cells and is
oriented from the strictly higher to the strictly lower cell. -/
theorem buildEvents_mem {rows : List (List Int)} {w h : Nat} {p : Nat × Nat}
    (hp : p ∈ buildEvents rows w h) :
    p.1 < w * h ∧ p.2 < w * h ∧
    elevAt rows (p.2 % w) (p.2 / w) < elevAt rows (p.1 % w) (p.1 / w) := by
  unfold buildEvents at hp
  obtain ⟨y, hy, hp⟩ := List.mem_flatMap.mp hp
  obtain ⟨x, hx, hp⟩ := List.mem_flatMap.mp hp
  rw [List.mem_range] at hy
  rw [List.mem_range] at hx
  rcases List.mem_append.mp hp with hp | hp
  · simp only [hEdge] at hp
    split at hp
    · simp at hp
    · rename_i hx0
      split at hp
      · rename_i hne_e
        split at hp
        · rename_i hlt
          have hpe : p = (y * w + x, y * w + x - 1) := by simpa using hp
          subst hpe
          obtain ⟨x', rfl⟩ : ∃ x', x = x' + 1 := ⟨x - 1, by omega⟩
          have e2 : y * w + (x' + 1) - 1 = y * w + x' := by omega
          have e3 : x' + 1 - 1 = x' := by omega
          rw [e3] at hlt
          refine ⟨cell_index_lt hx hy, ?_, ?_⟩
          · show y * w + (x' + 1) - 1 < w * h
            rw [e2]
            exact cell_index_lt (by omega) hy
          · show elevAt rows ((y * w + (x' + 1) - 1) % w) ((y * w + (x' + 1) - 1) / w)
              < elevAt rows ((y * w + (x' + 1)) % w) ((y * w + (x' + 1)) / w)
            rw [e2, cell_mod (show x' < w by omega), cell_div (show x' < w by omega),
              cell_mod hx, cell_div hx]
            exact hlt
        · rename_i hlt
          have hpe : p = (y * w + x - 1, y * w + x) := by simpa using hp
          subst hpe
          obtain ⟨x', rfl⟩ : ∃ x', x = x' + 1 := ⟨x - 1, by omega⟩
          have e2 : y * w + (x' + 1) - 1 = y * w + x' := by omega
          have e3 : x' + 1 - 1 = x' := by omega
          rw [e3] at hlt
          rw [e3] at hne_e
          refine ⟨?_, cell_index_lt hx hy, ?_⟩
          · show y * w + (x' + 1) - 1 < w * h
            rw [e2]
            exact cell_index_lt (by omega) hy
          · show elevAt rows ((y * w + (x' + 1)) % w) ((y * w + (x' + 1)) / w)
              < elevAt rows ((y * w + (x' + 1) - 1) % w) ((y * w + (x' + 1) - 1) / w)
            rw [e2, cell_mod (show x' < w by omega), cell_div (show x' < w by omega),
              cell_mod hx, cell_div hx]
            omega
      · simp at hp
  · simp only [vEdge] at hp
    split at hp
    · simp at hp
    · rename_i hy0
      split at hp
      · rename_i hne_e
        split at hp
        · rename_i hlt
          have hpe : p = (y * w + x, (y - 1) * w + x) := by simpa using hp
          subst hpe
          obtain ⟨y', rfl⟩ : ∃ y', y = y' + 1 := ⟨y - 1, by omega⟩
          have e3 : y' + 1 - 1 = y' := by omega
          rw [e3] at hlt
          refine ⟨cell_index_lt hx hy, ?_, ?_⟩
          · show (y' + 1 - 1) * w + x < w * h
            rw [e3]
            exact cell_index_lt hx (by omega)
          · show elevAt rows (((y' + 1 - 1) * w + x) % w) (((y' + 1 - 1) * w + x) / w)
              < elevAt rows (((y' + 1) * w + x) % w) (((y' + 1) * w + x) / w)
            rw [e3, cell_mod hx, cell_div hx, cell_mod hx, cell_div hx]
            exact hlt
        · rename_i hlt
          have hpe : p = ((y - 1) * w + x, y * w + x) := by simpa using hp
          subst hpe
          obtain ⟨y', rfl⟩ : ∃ y', y = y' + 1 := ⟨y - 1, by omega⟩
          have e3 : y' + 1 - 1 = y' := by omega
          rw [e3] at hlt
          rw [e3] at hne_e
          refine ⟨?_, cell_index_lt hx hy, ?_⟩
          · show (y' + 1 - 1) * w + x < w * h
            rw [e3]
            exact cell_index_lt hx (by omega)
          · show elevAt rows (((y' + 1) * w + x) % w) (((y' + 1) * w + x) / w)
              < elevAt rows (((y' + 1 - 1) * w + x) % w) (((y' + 1 - 1) * w + x) / w)
            rw [e3, cell_mod hx, cell_div hx, cell_mod hx, cell_div hx]
            omega
      · simp at hp

theorem initNodes_go_down (rows : List (List Int)) (w h : Nat) (k : Nat) :
    (getN (initNodes rows w h) k).go_down = [] := by
  by_cases hk : k < w * h
  · rw [getN_initNodes hk]
  · rw [getN_of_length_le (by rw [length_initNodes]; omega)]
    rfl

theorem initNodes_go_up (rows : List (List Int)) (w h : Nat) (k : Nat) :
    (getN (initNodes rows w h) k).go_up = [] := by
  by_cases hk : k < w * h
  · rw [getN_initNodes hk]
  · rw [getN_of_length_le (by rw [length_initNodes]; omega)]
    rfl

theorem initMap_good (rows : List (List Int)) (w h : Nat) :
    GoodState rows w h (initMap rows w h) := by
  have hN : (initMap rows w h).nodes = initNodes rows w h := rfl
  refine ⟨?_, ?_, ?_, ?_, ?_, ?_, ?_, ?_⟩
  · rw [hN]
    exact length_initNodes rows w h
  · intro k hk
    rw [hN, getN_initNodes hk]
  · intro k hk
    rw [hN, getN_initNodes hk]
    exact ⟨rfl, rfl, rfl⟩
  · intro j c hc
    rw [hN, initNodes_go_down] at hc
    cases hc
  · intro j m hm
    rw [hN, initNodes_go_up] at hm
    cases hm
  · intro j k
    rw [hN, initNodes_go_down, initNodes_go_up]
    simp
  · intro k hk
    rw [hN] at hk ⊢
    refine ⟨fun _ => ?_, fun hgd => absurd (initNodes_go_down rows w h k) hgd⟩
    rw [length_initNodes] at hk
    rw [getN_initNodes hk]
  · show (∅ : Finset Nat) = _
    apply Finset.ext
    intro a
    rw [hN]
    simp [initNodes_go_down]

theorem initMap_edgeChar (rows : List (List Int)) (w h : Nat) :
    EdgeChar [] (initMap rows w h) :=
  ⟨fun a => initNodes_go_down rows w h a, fun a => initNodes_go_up rows w h a⟩

theorem go_down_EdgeChar {s s' : SkiMap} {ui di : Nat} {evs : List (Nat × Nat)}
    (hec : EdgeChar evs s) (hu : ui < s.nodes.length) (hd : di < s.nodes.length)
    (hne : ui ≠ di) (h : go_down s ui di = some s') :
    EdgeChar (evs ++ [(ui, di)]) s' := by
  obtain ⟨ns4, hlpu, hs'⟩ := go_down_eq h
  have hskel4 := lpUpdate_skel hlpu
  have hgd4 : ∀ k, (getN ns4 k).go_down = (getN (edgesAdded s.nodes ui di) k).go_down :=
    fun k => (hskel4.2 k).2.2.2.2.1
  have hgu4 : ∀ k, (getN ns4 k).go_up = (getN (edgesAdded s.nodes ui di) k).go_up :=
    fun k => (hskel4.2 k).2.2.2.2.2
  rw [hs']
  constructor
  · intro a
    show (getN ns4 a).go_down = _
    rw [hgd4 a, List.filter_append, List.map_append]
    by_cases ha : a = ui
    · subst ha
      rw [go_down_edgesAdded_self hu hne, hec.1 a]
      simp
    · rw [go_down_edgesAdded_other ha, hec.1 a]
      have hb : (((ui, di) : Nat × Nat).1 == a) = false :=
        beq_eq_false_iff_ne.mpr (fun hh => ha hh.symm)
      simp [hb]
  · intro a
    show (getN ns4 a).go_up = _
    rw [hgu4 a, List.filter_append, List.map_append]
    by_cases ha : a = di
    · subst ha
      rw [go_up_edgesAdded_self hd hne, hec.2 a]
      simp
    · rw [go_up_edgesAdded_other ha, hec.2 a]
      have hb : (((ui, di) : Nat × Nat).2 == a) = false :=
        beq_eq_false_iff_ne.mpr (fun hh => ha hh.symm)
      simp [hb]

/-- Main build induction: after any number of insertions the build has
not failed and every maintained invariant holds. -/
theorem buildState_good (rows : List (List Int)) (w h : Nat) : ∀ n,
    ∃ s, buildState rows w h n = some s ∧ GoodState rows w h s ∧
      EdgeChar ((buildEvents rows w h).take n) s := by
  intro n
  induction n with
  | zero =>
    exact ⟨initMap rows w h, rfl, initMap_good rows w h, initMap_edgeChar rows w h⟩
  | succ n ih =>
    obtain ⟨s, hs, hgood, hec⟩ := ih
    by_cases hn : n < (buildEvents rows w h).length
    · obtain ⟨e, he⟩ : ∃ e, (buildEvents rows w h)[n]? = some e :=
        ⟨_, List.getElem?_eq_getElem hn⟩
      have hmem : e ∈ buildEvents rows w h := by
        obtain ⟨hlt, heq⟩ := List.getElem?_eq_some.mp he
        rw [← heq]
        exact List.getElem_mem hlt
      obtain ⟨h1, h2, h3⟩ := buildEvents_mem hmem
      have hu : e.1 < s.nodes.length := by rw [hgood.len]; exact h1
      have hd : e.2 < s.nodes.length := by rw [hgood.len]; exact h2
      have helev : (getN s.nodes e.2).elevation < (getN s.nodes e.1).elevation := by
        rw [hgood.elevF e.2 h2, hgood.elevF e.1 h1]
        exact h3
      have hne : e.1 ≠ e.2 := by
        intro hh
        rw [hh] at helev
        exact absurd helev (lt_irrefl _)
      obtain ⟨s', hs'⟩ := go_down_total hgood.up hu hd helev
      have htake : (buildEvents rows w h).take (n + 1)
          = (buildEvents rows w h).take n ++ [e] := by
        rw [List.take_succ, he]
        rfl
      have hbs' : buildState rows w h (n + 1) = some s' := by
        unfold buildState at hs ⊢
        rw [htake, runEvents_append, hs]
        show runEvents s [e] = some s'
        show (match go_down s e.1 e.2 with
          | none => none
          | some s2 => runEvents s2 []) = some s'
        rw [hs']
        rfl
      obtain ⟨hlen', hw', hh', hfields'⟩ := go_down_fields hs'
      obtain ⟨hdown', hup', hconv'⟩ :=
        go_down_preserves_WF hgood.down hgood.up hgood.conv hu hd helev hs'
      have hinv' := go_down_preserves_Inv hgood.down hgood.up hgood.conv hgood.inv
        hu hd helev hs'
      have hsummit' := go_down_preserves_SummitInv hgood.summit hu hd hne hs'
      refine ⟨s', hbs', ⟨?_, ?_, ?_, hdown', hup', hconv', hinv', hsummit'⟩, ?_⟩
      · rw [hlen', hgood.len]
      · intro k hk
        rw [(hfields' k).2.2.2, hgood.elevF k hk]
      · intro k hk
        obtain ⟨c1, c2, c3⟩ := hgood.coords k hk
        exact ⟨(hfields' k).1.trans c1, (hfields' k).2.1.trans c2,
          (hfields' k).2.2.1.trans c3⟩
      · rw [htake]
        have hpair : e = (e.1, e.2) := rfl
        rw [hpair] at hs'
        have := go_down_EdgeChar hec hu hd hne hs'
        simpa using this
    · have ht : (buildEvents rows w h).take (n + 1) = (buildEvents rows w h).take n := by
        rw [List.take_of_length_le (by omega), List.take_of_length_le (by omega)]
      refine ⟨s, ?_, hgood, ?_⟩
      · unfold buildState at hs ⊢
        rw [ht]
        exact hs
      · rw [ht]
        exact hec

/-! ### Claim theorems: invariants of the incremental build -/

/-- Claim C1: after every single edge insertion performed during the
grid build (and hence in the final graph), every node satisfies:
`longest_path = 0` if its `go_down` list is empty, and otherwise
`longest_path = 1 + max` of the `longest_path` values of the nodes in
its `go_down` list. -/
theorem claim_C1_longest_path_invariant (rows : List (List Int)) (w h n : Nat) :
    ∃ s, buildState rows w h n = some s ∧ ∀ k, k < s.nodes.length →
      ((getN s.nodes k).go_down = [] → (getN s.nodes k).longest_path = 0) ∧
      ((getN s.nodes k).go_down ≠ [] → (getN s.nodes k).longest_path
        = 1 + listMax (((getN s.nodes k).go_down).map
            (fun c => (getN s.nodes c).longest_path))) := by
  obtain ⟨s, hs, hgood, -⟩ := buildState_good rows w h n
  exact ⟨s, hs, hgood.inv⟩

/-- Claim C2: after every edge insertion performed during the grid
build, the summit set equals exactly the set of indices of nodes whose
`go_up` list is empty and whose `go_down` list is non-empty. -/
theorem claim_C2_summit_set (rows : List (List Int)) (w h n : Nat) :
    ∃ s, buildState rows w h n = some s ∧
      s.summits = (Finset.range s.nodes.length).filter
        (fun k => (getN s.nodes k).go_up = [] ∧ (getN s.nodes k).go_down ≠ []) := by
  obtain ⟨s, hs, hgood, -⟩ := buildState_good rows w h n
  exact ⟨s, hs, hgood.summit⟩

/-- Claim C6: for every node and every single successful edge
insertion, `longest_path` after the insertion is at least its value
before (it never decreases). -/
theorem claim_C6_monotonic (s s' : SkiMap) (ui di : Nat)
    (h : go_down s ui di = some s') (k : Nat) :
    (getN s.nodes k).longest_path ≤ (getN s'.nodes k).longest_path :=
  go_down_mono h k

theorem claim_C6_witness :
    go_down twoNodeMap 0 1 = some twoNodeResult ∧
    (getN twoNodeMap.nodes 0).longest_path ≤ (getN twoNodeResult.nodes 0).longest_path :=
  ⟨by decide, claim_C6_monotonic twoNodeMap twoNodeResult 0 1 (by decide) 0⟩

/-- Claim C7: under the precondition that elevation strictly increases
along every `go_up` back-reference (equivalently strictly decreases
along every descent edge) and that the freshly inserted edge descends,
a single edge insertion terminates: `_go_down` returns, and the
breadth-first worklist of ancestor levels becomes empty after finitely
many iterations. -/
theorem claim_C7_termination (s : SkiMap) (ui di : Nat) (hup : UpOK s.nodes)
    (hu : ui < s.nodes.length) (hd : di < s.nodes.length)
    (helev : (getN s.nodes di).elevation < (getN s.nodes ui).elevation) :
    (∃ s', go_down s ui di = some s') ∧
    ∃ T, iterF (edgesAdded s.nodes ui di)
      (getN (edgesAdded s.nodes ui di) ui).go_up T = [] := by
  have hne : ui ≠ di := by
    intro hh
    rw [hh] at helev
    exact absurd helev (lt_irrefl _)
  have hup2 : UpOK (edgesAdded s.nodes ui di) := UpOK_edgesAdded hup hu hd hne helev
  exact ⟨go_down_total hup hu hd helev,
    ⟨(edgesAdded s.nodes ui di).length, iterF_up_vanish hup2 ui (le_refl _)⟩⟩

theorem claim_C7_witness :
    (∃ s', go_down twoNodeMap 0 1 = some s') ∧
    ∃ T, iterF (edgesAdded twoNodeMap.nodes 0 1)
      (getN (edgesAdded twoNodeMap.nodes 0 1) 0).go_up T = [] :=
  claim_C7_termination twoNodeMap 0 1
    (by
      intro j m hm
      have hnil : (getN twoNodeMap.nodes j).go_up = [] := by
        match j with
        | 0 => rfl
        | 1 => rfl
        | j + 2 => rfl
      rw [hnil] at hm
      cases hm)
    (by decide) (by decide) (by decide)

/-- Claim C10: frame of `_go_down(upper, lower)`: the lower node's
`longest_path` is unchanged, as is the `longest_path` of every node
that is neither the upper node nor ascent-reachable from it; the only
edge-list mutations are the single append of `lower` to
`upper.go_down` and of `upper` to `lower.go_up`; and summit membership
changes at most at `lower` (removal) and `upper` (addition). -/
theorem claim_C10_frame (s s' : SkiMap) (ui di : Nat) (hup : UpOK s.nodes)
    (hu : ui < s.nodes.length) (hd : di < s.nodes.length)
    (helev : (getN s.nodes di).elevation < (getN s.nodes ui).elevation)
    (h : go_down s ui di = some s') :
    (getN s'.nodes di).longest_path = (getN s.nodes di).longest_path ∧
    (∀ k, k < s.nodes.length → k ≠ ui → ¬ AscendsTo s'.nodes ui k →
      (getN s'.nodes k).longest_path = (getN s.nodes k).longest_path) ∧
    (getN s'.nodes ui).go_down = (getN s.nodes ui).go_down ++ [di] ∧
    (getN s'.nodes di).go_up = (getN s.nodes di).go_up ++ [ui] ∧
    (getN s'.nodes ui).go_up = (getN s.nodes ui).go_up ∧
    (getN s'.nodes di).go_down = (getN s.nodes di).go_down ∧
    (∀ k, k ≠ ui → k ≠ di → (getN s'.nodes k).go_down = (getN s.nodes k).go_down ∧
      (getN s'.nodes k).go_up = (getN s.nodes k).go_up) ∧
    (∀ k, k ≠ ui → k ≠ di → (k ∈ s'.summits ↔ k ∈ s.summits)) :=
  go_down_frame hup hu hd helev h

theorem claim_C10_witness :
    (getN twoNodeResult.nodes 1).longest_path = (getN twoNodeMap.nodes 1).longest_path ∧
    (∀ k, k < twoNodeMap.nodes.length → k ≠ 0 → ¬ AscendsTo twoNodeResult.nodes 0 k →
      (getN twoNodeResult.nodes k).longest_path = (getN twoNodeMap.nodes k).longest_path) ∧
    (getN twoNodeResult.nodes 0).go_down = (getN twoNodeMap.nodes 0).go_down ++ [1] ∧
    (getN twoNodeResult.nodes 1).go_up = (getN twoNodeMap.nodes 1).go_up ++ [0] ∧
    (getN twoNodeResult.nodes 0).go_up = (getN twoNodeMap.nodes 0).go_up ∧
    (getN twoNodeResult.nodes 1).go_down = (getN twoNodeMap.nodes 1).go_down ∧
    (∀ k, k ≠ 0 → k ≠ 1 → (getN twoNodeResult.nodes k).go_down
        = (getN twoNodeMap.nodes k).go_down ∧
      (getN twoNodeResult.nodes k).go_up = (getN twoNodeMap.nodes k).go_up) ∧
    (∀ k, k ≠ 0 → k ≠ 1 → (k ∈ twoNodeResult.summits ↔ k ∈ twoNodeMap.summits)) :=
  claim_C10_frame twoNodeMap twoNodeResult 0 1
    (by
      intro j m hm
      have hnil : (getN twoNodeMap.nodes j).go_up = [] := by
        match j with
        | 0 => rfl
        | 1 => rfl
        | j + 2 => rfl
      rw [hnil] at hm
      cases hm)
    (by decide) (by decide) (by decide) (by decide)

/-- Claim C3 counterexample: on the graph state built from the flat
2×2 grid the summit set is empty, and the no-target query raises
(`max` of the empty summit set, modelled as `none`) instead of
returning the empty result the claim asserts. -/
theorem claim_C3_counterexample :
    build_nodes [[5, 5], [5, 5]] 2 2 = some flatMapState ∧
    flatMapState.summits = ∅ ∧
    longest_paths flatMapState none = none ∧
    longest_paths flatMapState none ≠ some ∅ := by
  refine ⟨by decide, by decide, by decide, by decide⟩

/-- Claim C3 (amended): for every graph state with an empty summit
set, the no-target-length query raises (returns `none`, Python's
`ValueError` from `max(∅)`); with an explicit target length it does
return an empty result without raising. -/
theorem claim_C3_empty_summits (s : SkiMap) (h : s.summits = ∅) :
    longest_paths s none = none ∧ ∀ l, longest_paths s (some l) = some ∅ := by
  constructor
  · show (if s.summits.Nonempty then _ else none) = none
    rw [if_neg]
    rw [h]
    exact Finset.not_nonempty_empty
  · intro l
    show some (s.summits.filter _) = some ∅
    rw [h]
    rfl

theorem claim_C3_witness :
    longest_paths flatMapState none = none ∧
    ∀ l, longest_paths flatMapState (some l) = some ∅ :=
  claim_C3_empty_summits flatMapState (by decide)

/-- Claim C4 counterexample: on the flat 2×2 grid `[[5,5],[5,5]]` the
system does not report longest path length 0 and maximum vertical drop
0 — it raises (the empty-summit `max` on line 75, modelled as
`none`). -/
theorem claim_C4_counterexample :
    find_longest_path [[5, 5], [5, 5]] 2 2 = none ∧
    find_longest_path [[5, 5], [5, 5]] 2 2 ≠ some (0, 0) := by
  refine ⟨by decide, by decide⟩

/-- Claim C4 (amended): for the flat 2×2 grid `[[5,5],[5,5]]` the
build inserts no edges and produces no summits, but the system then
raises an error from the empty-summit query (modelled as `none`)
instead of reporting longest path length 0 and maximum vertical drop
0. -/
theorem claim_C4_flat_grid :
    build_nodes [[5, 5], [5, 5]] 2 2 = some flatMapState ∧
    (flatMapState.nodes.map Node.go_down = [[], [], [], []]) ∧
    (flatMapState.nodes.map Node.go_up = [[], [], [], []]) ∧
    flatMapState.summits = ∅ ∧
    find_longest_path [[5, 5], [5, 5]] 2 2 = none := by
  refine ⟨by decide, by decide, by decide, by decide, by decide⟩

/-- Claim C9: for the single-row grid `[[3,2,1]]` the build produces
the descent chain 3 → 2 → 1 (node 0 → node 1 → node 2), the only
summit is node 0, whose elevation is 3, and the system reports longest
path length 2 and maximum vertical drop 2. -/
theorem claim_C9_single_row :
    build_nodes [[3, 2, 1]] 3 1
      = some ⟨3, 1, [⟨0, 0, 0, 3, [1], [], 2⟩, ⟨1, 1, 0, 2, [2], [0], 1⟩,
          ⟨2, 2, 0, 1, [], [1], 0⟩], {0}⟩ ∧
    find_longest_path [[3, 2, 1]] 3 1 = some (2, 2) := by
  refine ⟨by decide, by decide⟩

/-! ### Exactness of the grid scan: counting the generated edges -/

theorem count_snd_filter (a b : Nat) (evs : List (Nat × Nat)) :
    List.count b ((evs.filter (fun p => p.1 == a)).map Prod.snd)
      = List.count (a, b) evs := by
  induction evs with
  | nil => rfl
  | cons e evs ih =>
    rw [List.count_cons, List.filter_cons]
    by_cases he : e.1 = a
    · rw [if_pos (by simpa using he), List.map_cons, List.count_cons, ih]
      congr 1
      by_cases hb : e.2 = b
      · rw [if_pos (by simpa using hb),
          if_pos (by rw [beq_iff_eq, Prod.ext_iff]; exact ⟨he, hb⟩)]
      · rw [if_neg (by simpa using hb),
          if_neg (by rw [beq_iff_eq, Prod.ext_iff]; rintro ⟨-, h2⟩; exact hb h2)]
    · rw [if_neg (by simpa using he), ih,
        if_neg (by rw [beq_iff_eq, Prod.ext_iff]; rintro ⟨h1, -⟩; exact he h1)]
      omega

theorem count_flatMap_range (c : Nat × Nat) (f : Nat → List (Nat × Nat)) (n : Nat) :
    List.count c ((List.range n).flatMap f)
      = ((List.range n).map (fun k => List.count c (f k))).sum := by
  induction n with
  | zero => rfl
  | succ n ih =>
    rw [List.range_succ, List.flatMap_append, List.count_append, List.map_append,
      List.sum_append, ih]
    simp

theorem sum_map_zero {f : Nat → Nat} {n : Nat} (h : ∀ t < n, f t = 0) :
    ((List.range n).map f).sum = 0 := by
  induction n with
  | zero => rfl
  | succ n ih =>
    rw [List.range_succ, List.map_append, List.sum_append,
      ih (fun t ht => h t (Nat.lt_succ_of_lt ht))]
    simp [h n (Nat.lt_succ_self n)]

theorem sum_map_single {f : Nat → Nat} {n k : Nat} (hk : k < n)
    (h0 : ∀ t < n, t ≠ k → f t = 0) : ((List.range n).map f).sum = f k := by
  induction n with
  | zero => omega
  | succ n ih =>
    rw [List.range_succ, List.map_append, List.sum_append]
    by_cases hkn : k = n
    · subst hkn
      rw [sum_map_zero (fun t ht => h0 t (Nat.lt_succ_of_lt ht) (Nat.ne_of_lt ht))]
      simp
    · rw [ih (by omega) (fun t ht hne => h0 t (Nat.lt_succ_of_lt ht) hne)]
      have hn0 : f n = 0 := h0 n (Nat.lt_succ_self n) (fun hh => hkn hh.symm)
      simp [hn0]

theorem sum_map_add (f g : Nat → Nat) (n : Nat) :
    ((List.range n).map (fun t => f t + g t)).sum
      = ((List.range n).map f).sum + ((List.range n).map g).sum := by
  induction n with
  | zero => rfl
  | succ n ih =>
    rw [List.range_succ, List.map_append, List.map_append, List.map_append,
      List.sum_append, List.sum_append, List.sum_append, ih]
    simp
    omega

theorem count_hEdge (rows : List (List Int)) (w xs ys i j : Nat) :
    List.count (i, j) (hEdge rows w xs ys)
      = if hHit rows w i j xs ys then 1 else 0 := by
  unfold hHit
  simp only [hEdge]
  split
  · rename_i h0
    rw [if_neg]
    · rfl
    · rintro ⟨hpos, -⟩
      omega
  · rename_i h0
    split
    · rename_i hne
      split
      · rename_i hlt
        rw [List.count_cons, List.count_nil]
        by_cases hm : i = ys * w + xs ∧ j = ys * w + xs - 1
        · rw [if_pos (by rw [beq_iff_eq, Prod.ext_iff]; exact ⟨hm.1.symm, hm.2.symm⟩),
            if_pos ⟨by omega, Or.inl ⟨hm.1, hm.2, hlt⟩⟩]
        · rw [if_neg (by rw [beq_iff_eq, Prod.ext_iff]; rintro ⟨h1, h2⟩; exact hm ⟨h1.symm, h2.symm⟩),
            if_neg (by rintro ⟨-, hD | hD⟩; exact hm ⟨hD.1, hD.2.1⟩; exact absurd hD.2.2 (by omega))]
      · rename_i hlt
        rw [List.count_cons, List.count_nil]
        by_cases hm : j = ys * w + xs ∧ i = ys * w + xs - 1
        · rw [if_pos (by rw [beq_iff_eq, Prod.ext_iff]; exact ⟨hm.2.symm, hm.1.symm⟩),
            if_pos ⟨by omega, Or.inr ⟨hm.1, hm.2, by omega⟩⟩]
        · rw [if_neg (by rw [beq_iff_eq, Prod.ext_iff]; rintro ⟨h1, h2⟩; exact hm ⟨h2.symm, h1.symm⟩),
            if_neg (by rintro ⟨-, hD | hD⟩; exact absurd hD.2.2 (by omega); exact hm ⟨hD.1, hD.2.1⟩)]
    · rename_i hne
      have heq : elevAt rows (xs - 1) ys = elevAt rows xs ys := not_not.mp hne
      rw [if_neg]
      · rfl
      · rintro ⟨-, hD | hD⟩ <;> exact absurd hD.2.2 (by omega)

theorem count_vEdge (rows : List (List Int)) (w xs ys i j : Nat) :
    List.count (i, j) (vEdge rows w xs ys)
      = if vHit rows w i j xs ys then 1 else 0 := by
  unfold vHit
  simp only [vEdge]
  split
  · rename_i h0
    rw [if_neg]
    · rfl
    · rintro ⟨hpos, -⟩
      omega
  · rename_i h0
    split
    · rename_i hne
      split
      · rename_i hlt
        rw [List.count_cons, List.count_nil]
        by_cases hm : i = ys * w + xs ∧ j = (ys - 1) * w + xs
        · rw [if_pos (by rw [beq_iff_eq, Prod.ext_iff]; exact ⟨hm.1.symm, hm.2.symm⟩),
            if_pos ⟨by omega, Or.inl ⟨hm.1, hm.2, hlt⟩⟩]
        · rw [if_neg (by rw [beq_iff_eq, Prod.ext_iff]; rintro ⟨h1, h2⟩; exact hm ⟨h1.symm, h2.symm⟩),
            if_neg (by rintro ⟨-, hD | hD⟩; exact hm ⟨hD.1, hD.2.1⟩; exact absurd hD.2.2 (by omega))]
      · rename_i hlt
        rw [List.count_cons, List.count_nil]
        by_cases hm : j = ys * w + xs ∧ i = (ys - 1) * w + xs
        · rw [if_pos (by rw [beq_iff_eq, Prod.ext_iff]; exact ⟨hm.2.symm, hm.1.symm⟩),
            if_pos ⟨by omega, Or.inr ⟨hm.1, hm.2, by omega⟩⟩]
        · rw [if_neg (by rw [beq_iff_eq, Prod.ext_iff]; rintro ⟨h1, h2⟩; exact hm ⟨h2.symm, h1.symm⟩),
            if_neg (by rintro ⟨-, hD | hD⟩; exact absurd hD.2.2 (by omega); exact hm ⟨hD.1, hD.2.1⟩)]
    · rename_i hne
      have heq : elevAt rows xs (ys - 1) = elevAt rows xs ys := not_not.mp hne
      rw [if_neg]
      · rfl
      · rintro ⟨-, hD | hD⟩ <;> exact absurd hD.2.2 (by omega)

theorem cell_inj {w x y x' y' : Nat} (hx : x < w) (hx' : x' < w)
    (h : y * w + x = y' * w + x') : x = x' ∧ y = y' := by
  have h1 : (y * w + x) % w = (y' * w + x') % w := by rw [h]
  have h2 : (y * w + x) / w = (y' * w + x') / w := by rw [h]
  rw [cell_mod hx, cell_mod hx'] at h1
  rw [cell_div hx, cell_div hx'] at h2
  exact ⟨h1, h2⟩

theorem hHit_char (rows : List (List Int)) {w h x y x2 y2 xs ys : Nat}
    (hx : x < w) (hy : y < h) (hx2 : x2 < w) (hy2 : y2 < h)
    (hxs : xs < w) (hys : ys < h) :
    hHit rows w (y * w + x) (y2 * w + x2) xs ys ↔
      ((y = y2 ∧ x2 + 1 = x ∧ xs = x ∧ ys = y
          ∧ elevAt rows x2 y2 < elevAt rows x y)
        ∨ (y = y2 ∧ x + 1 = x2 ∧ xs = x2 ∧ ys = y2
          ∧ elevAt rows x2 y2 < elevAt rows x y)) := by
  unfold hHit
  constructor
  · rintro ⟨hpos, ⟨h1, h2, h3⟩ | ⟨h1, h2, h3⟩⟩
    · obtain ⟨hxe, hye⟩ := cell_inj hx hxs h1
      subst hxe
      subst hye
      have h2' : y2 * w + x2 = y * w + (x - 1) := by omega
      obtain ⟨hxe2, hye2⟩ := cell_inj hx2 (by omega : x - 1 < w) h2'
      have hel : elevAt rows (x - 1) y = elevAt rows x2 y2 := by
        rw [hxe2, hye2]
      refine Or.inl ⟨hye2.symm, by omega, rfl, rfl, ?_⟩
      rw [← hel]
      exact h3
    · obtain ⟨hxe, hye⟩ := cell_inj hx2 hxs h1
      subst hxe
      subst hye
      have h2' : y * w + x = y2 * w + (x2 - 1) := by omega
      obtain ⟨hxe2, hye2⟩ := cell_inj hx (by omega : x2 - 1 < w) h2'
      have hel1 : elevAt rows x2 y2 = elevAt rows x2 y2 := rfl
      have hel2 : elevAt rows (x2 - 1) y2 = elevAt rows x y := by
        rw [← hxe2, ← hye2]
      refine Or.inr ⟨hye2, by omega, rfl, rfl, ?_⟩
      rw [← hel2]
      exact h3
  · rintro (⟨hyy, hxx, hxs1, hys1, helt⟩ | ⟨hyy, hxx, hxs1, hys1, helt⟩)
    · refine ⟨by omega, Or.inl ⟨by rw [hxs1, hys1], ?_, ?_⟩⟩
      · rw [hxs1, hys1, ← hyy]
        omega
      · rw [hxs1, hys1]
        have e1 : x - 1 = x2 := by omega
        rw [e1]
        rw [← hyy] at helt
        exact helt
    · refine ⟨by omega, Or.inr ⟨by rw [hxs1, hys1], ?_, ?_⟩⟩
      · rw [hxs1, hys1, hyy]
        omega
      · rw [hxs1, hys1]
        have e1 : x2 - 1 = x := by omega
        rw [e1]
        rw [hyy] at helt
        exact helt

theorem vHit_char (rows : List (List Int)) {w h x y x2 y2 xs ys : Nat}
    (hx : x < w) (hy : y < h) (hx2 : x2 < w) (hy2 : y2 < h)
    (hxs : xs < w) (hys : ys < h) :
    vHit rows w (y * w + x) (y2 * w + x2) xs ys ↔
      ((x = x2 ∧ y2 + 1 = y ∧ xs = x ∧ ys = y
          ∧ elevAt rows x2 y2 < elevAt rows x y)
        ∨ (x = x2 ∧ y + 1 = y2 ∧ xs = x2 ∧ ys = y2
          ∧ elevAt rows x2 y2 < elevAt rows x y)) := by
  unfold vHit
  constructor
  · rintro ⟨hpos, ⟨h1, h2, h3⟩ | ⟨h1, h2, h3⟩⟩
    · obtain ⟨hxe, hye⟩ := cell_inj hx hxs h1
      subst hxe
      subst hye
      have h2' : y2 * w + x2 = (y - 1) * w + x := by omega
      obtain ⟨hxe2, hye2⟩ := cell_inj hx2 hx h2'
      have hel : elevAt rows x (y - 1) = elevAt rows x2 y2 := by
        rw [hxe2, hye2]
      refine Or.inl ⟨hxe2.symm, by omega, rfl, rfl, ?_⟩
      rw [← hel]
      exact h3
    · obtain ⟨hxe, hye⟩ := cell_inj hx2 hxs h1
      subst hxe
      subst hye
      have h2' : y * w + x = (y2 - 1) * w + x2 := by omega
      obtain ⟨hxe2, hye2⟩ := cell_inj hx hx2 h2'
      have hel2 : elevAt rows x2 (y2 - 1) = elevAt rows x y := by
        rw [← hxe2, ← hye2]
      refine Or.inr ⟨hxe2, by omega, rfl, rfl, ?_⟩
      rw [← hel2]
      exact h3
  · rintro (⟨hxx, hyy, hxs1, hys1, helt⟩ | ⟨hxx, hyy, hxs1, hys1, helt⟩)
    · refine ⟨by omega, Or.inl ⟨by rw [hxs1, hys1], ?_, ?_⟩⟩
      · rw [hxs1, hys1]
        have e1 : y - 1 = y2 := by omega
        rw [e1, ← hxx]
      · rw [hxs1, hys1]
        have e1 : y - 1 = y2 := by omega
        rw [e1]
        rw [← hxx] at helt
        exact helt
    · refine ⟨by omega, Or.inr ⟨by rw [hxs1, hys1], ?_, ?_⟩⟩
      · rw [hxs1, hys1]
        have e1 : y2 - 1 = y := by omega
        rw [e1, hxx]
      · rw [hxs1, hys1]
        have e1 : y2 - 1 = y := by omega
        rw [e1]
        rw [hxx] at helt
        exact helt

theorem sum_hHit (rows : List (List Int)) {w h x y x2 y2 : Nat}
    (hx : x < w) (hy : y < h) (hx2 : x2 < w) (hy2 : y2 < h) :
    ((List.range h).map (fun ys => ((List.range w).map
        (fun xs => if hHit rows w (y * w + x) (y2 * w + x2) xs ys
          then 1 else 0)).sum)).sum
      = if (y = y2 ∧ (x + 1 = x2 ∨ x2 + 1 = x))
            ∧ elevAt rows x2 y2 < elevAt rows x y then 1 else 0 := by
  by_cases hc : (y = y2 ∧ (x + 1 = x2 ∨ x2 + 1 = x))
      ∧ elevAt rows x2 y2 < elevAt rows x y
  · rw [if_pos hc]
    obtain ⟨⟨hyy, hor⟩, helt⟩ := hc
    have houter : ∀ t, t < h → t ≠ y →
        ((List.range w).map (fun xs =>
          if hHit rows w (y * w + x) (y2 * w + x2) xs t
            then 1 else 0)).sum = 0 := by
      intro t ht htne
      apply sum_map_zero
      intro s hs
      have hnh : ¬ hHit rows w (y * w + x) (y2 * w + x2) s t := by
        intro hh
        rcases (hHit_char rows hx hy hx2 hy2 hs ht).mp hh with
          ⟨h1, h2, h3, h4, h5⟩ | ⟨h1, h2, h3, h4, h5⟩
        · exact htne h4
        · exact htne (by omega)
      rw [if_neg hnh]
    rw [sum_map_single hy houter]
    rcases hor with hadj | hadj
    · have hinner : ∀ s, s < w → s ≠ x2 →
          (if hHit rows w (y * w + x) (y2 * w + x2) s y
            then 1 else 0) = 0 := by
        intro s hs hsne
        have hnh : ¬ hHit rows w (y * w + x) (y2 * w + x2) s y := by
          intro hh
          rcases (hHit_char rows hx hy hx2 hy2 hs hy).mp hh with
            ⟨h1, h2, h3, h4, h5⟩ | ⟨h1, h2, h3, h4, h5⟩
          · omega
          · exact hsne h3
        rw [if_neg hnh]
      rw [sum_map_single hx2 hinner]
      have hpos : hHit rows w (y * w + x) (y2 * w + x2) x2 y :=
        (hHit_char rows hx hy hx2 hy2 hx2 hy).mpr
          (Or.inr ⟨hyy, hadj, rfl, hyy, helt⟩)
      rw [if_pos hpos]
    · have hinner : ∀ s, s < w → s ≠ x →
          (if hHit rows w (y * w + x) (y2 * w + x2) s y
            then 1 else 0) = 0 := by
        intro s hs hsne
        have hnh : ¬ hHit rows w (y * w + x) (y2 * w + x2) s y := by
          intro hh
          rcases (hHit_char rows hx hy hx2 hy2 hs hy).mp hh with
            ⟨h1, h2, h3, h4, h5⟩ | ⟨h1, h2, h3, h4, h5⟩
          · exact hsne h3
          · omega
        rw [if_neg hnh]
      rw [sum_map_single hx hinner]
      have hpos : hHit rows w (y * w + x) (y2 * w + x2) x y :=
        (hHit_char rows hx hy hx2 hy2 hx hy).mpr
          (Or.inl ⟨hyy, hadj, rfl, rfl, helt⟩)
      rw [if_pos hpos]
  · rw [if_neg hc]
    apply sum_map_zero
    intro t ht
    apply sum_map_zero
    intro s hs
    have hnh : ¬ hHit rows w (y * w + x) (y2 * w + x2) s t := by
      intro hh
      rcases (hHit_char rows hx hy hx2 hy2 hs ht).mp hh with
        ⟨h1, h2, h3, h4, h5⟩ | ⟨h1, h2, h3, h4, h5⟩
      · exact hc ⟨⟨h1, Or.inr h2⟩, h5⟩
      · exact hc ⟨⟨h1, Or.inl h2⟩, h5⟩
    rw [if_neg hnh]

theorem sum_vHit (rows : List (List Int)) {w h x y x2 y2 : Nat}
    (hx : x < w) (hy : y < h) (hx2 : x2 < w) (hy2 : y2 < h) :
    ((List.range h).map (fun ys => ((List.range w).map
        (fun xs => if vHit rows w (y * w + x) (y2 * w + x2) xs ys
          then 1 else 0)).sum)).sum
      = if (x = x2 ∧ (y + 1 = y2 ∨ y2 + 1 = y))
            ∧ elevAt rows x2 y2 < elevAt rows x y then 1 else 0 := by
  by_cases hc : (x = x2 ∧ (y + 1 = y2 ∨ y2 + 1 = y))
      ∧ elevAt rows x2 y2 < elevAt rows x y
  · rw [if_pos hc]
    obtain ⟨⟨hxx, hor⟩, helt⟩ := hc
    rcases hor with hadj | hadj
    · have houter : ∀ t, t < h → t ≠ y2 →
          ((List.range w).map (fun xs =>
            if vHit rows w (y * w + x) (y2 * w + x2) xs t
              then 1 else 0)).sum = 0 := by
        intro t ht htne
        apply sum_map_zero
        intro s hs
        have hnh : ¬ vHit rows w (y * w + x) (y2 * w + x2) s t := by
          intro hh
          rcases (vHit_char rows hx hy hx2 hy2 hs ht).mp hh with
            ⟨h1, h2, h3, h4, h5⟩ | ⟨h1, h2, h3, h4, h5⟩
          · omega
          · exact htne h4
        rw [if_neg hnh]
      rw [sum_map_single hy2 houter]
      have hinner : ∀ s, s < w → s ≠ x2 →
          (if vHit rows w (y * w + x) (y2 * w + x2) s y2
            then 1 else 0) = 0 := by
        intro s hs hsne
        have hnh : ¬ vHit rows w (y * w + x) (y2 * w + x2) s y2 := by
          intro hh
          rcases (vHit_char rows hx hy hx2 hy2 hs hy2).mp hh with
            ⟨h1, h2, h3, h4, h5⟩ | ⟨h1, h2, h3, h4, h5⟩
          · omega
          · exact hsne h3
        rw [if_neg hnh]
      rw [sum_map_single hx2 hinner]
      have hpos : vHit rows w (y * w + x) (y2 * w + x2) x2 y2 :=
        (vHit_char rows hx hy hx2 hy2 hx2 hy2).mpr
          (Or.inr ⟨hxx, hadj, rfl, rfl, helt⟩)
      rw [if_pos hpos]
    · have houter : ∀ t, t < h → t ≠ y →
          ((List.range w).map (fun xs =>
            if vHit rows w (y * w + x) (y2 * w + x2) xs t
              then 1 else 0)).sum = 0 := by
        intro t ht htne
        apply sum_map_zero
        intro s hs
        have hnh : ¬ vHit rows w (y * w + x) (y2 * w + x2) s t := by
          intro hh
          rcases (vHit_char rows hx hy hx2 hy2 hs ht).mp hh with
            ⟨h1, h2, h3, h4, h5⟩ | ⟨h1, h2, h3, h4, h5⟩
          · exact htne h4
          · omega
        rw [if_neg hnh]
      rw [sum_map_single hy houter]
      have hinner : ∀ s, s < w → s ≠ x →
          (if vHit rows w (y * w + x) (y2 * w + x2) s y
            then 1 else 0) = 0 := by
        intro s hs hsne
        have hnh : ¬ vHit rows w (y * w + x) (y2 * w + x2) s y := by
          intro hh
          rcases (vHit_char rows hx hy hx2 hy2 hs hy).mp hh with
            ⟨h1, h2, h3, h4, h5⟩ | ⟨h1, h2, h3, h4, h5⟩
          · exact hsne h3
          · omega
        rw [if_neg hnh]
      rw [sum_map_single hx hinner]
      have hpos : vHit rows w (y * w + x) (y2 * w + x2) x y :=
        (vHit_char rows hx hy hx2 hy2 hx hy).mpr
          (Or.inl ⟨hxx, hadj, rfl, rfl, helt⟩)
      rw [if_pos hpos]
  · rw [if_neg hc]
    apply sum_map_zero
    intro t ht
    apply sum_map_zero
    intro s hs
    have hnh : ¬ vHit rows w (y * w + x) (y2 * w + x2) s t := by
      intro hh
      rcases (vHit_char rows hx hy hx2 hy2 hs ht).mp hh with
        ⟨h1, h2, h3, h4, h5⟩ | ⟨h1, h2, h3, h4, h5⟩
      · exact hc ⟨⟨h1, Or.inr h2⟩, h5⟩
      · exact hc ⟨⟨h1, Or.inl h2⟩, h5⟩
    rw [if_neg hnh]

theorem count_buildEvents (rows : List (List Int)) {w h x y x2 y2 : Nat}
    (hx : x < w) (hy : y < h) (hx2 : x2 < w) (hy2 : y2 < h) :
    List.count (y * w + x, y2 * w + x2) (buildEvents rows w h)
      = if orthAdj x y x2 y2 ∧ elevAt rows x2 y2 < elevAt rows x y
        then 1 else 0 := by
  unfold buildEvents
  rw [count_flatMap_range]
  have hstep1 : ((List.range h).map (fun ys =>
      List.count (y * w + x, y2 * w + x2)
        ((List.range w).flatMap (fun xs => cellEdges rows w xs ys)))).sum
    = ((List.range h).map (fun ys => ((List.range w).map (fun xs =>
        (if hHit rows w (y * w + x) (y2 * w + x2) xs ys then 1 else 0)
        + (if vHit rows w (y * w + x) (y2 * w + x2) xs ys
            then 1 else 0))).sum)).sum := by
    congr 1
    apply List.map_congr_left
    intro ys _
    rw [count_flatMap_range]
    congr 1
    apply List.map_congr_left
    intro xs _
    unfold cellEdges
    rw [List.count_append, count_hEdge, count_vEdge]
  rw [hstep1]
  have hmid : ∀ ys, ((List.range w).map (fun xs =>
      (if hHit rows w (y * w + x) (y2 * w + x2) xs ys then 1 else 0)
      + (if vHit rows w (y * w + x) (y2 * w + x2) xs ys
          then 1 else 0))).sum
    = ((List.range w).map (fun xs =>
        if hHit rows w (y * w + x) (y2 * w + x2) xs ys then 1 else 0)).sum
      + ((List.range w).map (fun xs =>
        if vHit rows w (y * w + x) (y2 * w + x2) xs ys
          then 1 else 0)).sum := by
    intro ys
    exact sum_map_add _ _ w
  have h1 : (List.range h).map (fun ys => ((List.range w).map (fun xs =>
      (if hHit rows w (y * w + x) (y2 * w + x2) xs ys then 1 else 0)
      + (if vHit rows w (y * w + x) (y2 * w + x2) xs ys
          then 1 else 0))).sum)
    = (List.range h).map (fun ys =>
        ((List.range w).map (fun xs =>
          if hHit rows w (y * w + x) (y2 * w + x2) xs ys
            then 1 else 0)).sum
        + ((List.range w).map (fun xs =>
          if vHit rows w (y * w + x) (y2 * w + x2) xs ys
            then 1 else 0)).sum) :=
    List.map_congr_left (fun ys _ => hmid ys)
  rw [h1, sum_map_add, sum_hHit rows hx hy hx2 hy2,
    sum_vHit rows hx hy hx2 hy2]
  by_cases hH : (y = y2 ∧ (x + 1 = x2 ∨ x2 + 1 = x))
      ∧ elevAt rows x2 y2 < elevAt rows x y
  · rw [if_pos hH]
    have hnV : ¬ ((x = x2 ∧ (y + 1 = y2 ∨ y2 + 1 = y))
        ∧ elevAt rows x2 y2 < elevAt rows x y) := by
      rintro ⟨⟨h1, h2⟩, h3⟩
      obtain ⟨⟨h4, h5⟩, h6⟩ := hH
      omega
    have hOA : orthAdj x y x2 y2 := Or.inl hH.1
    rw [if_neg hnV, if_pos ⟨hOA, hH.2⟩]
  · rw [if_neg hH]
    by_cases hV : (x = x2 ∧ (y + 1 = y2 ∨ y2 + 1 = y))
        ∧ elevAt rows x2 y2 < elevAt rows x y
    · have hOA : orthAdj x y x2 y2 := Or.inr hV.1
      rw [if_pos hV, if_pos ⟨hOA, hV.2⟩]
    · rw [if_neg hV, if_neg]
      rintro ⟨hadj | hadj, helt⟩
      · exact hH ⟨hadj, helt⟩
      · exact hV ⟨hadj, helt⟩

/-- Claim C5: the build creates exactly one node per grid cell (an arena
of length `w*h`, node `k` carrying index `k`, coordinates
`(k % w, k / w)` and that cell's elevation), and for every ordered pair
of orthogonally adjacent cells, the descent list of the first cell's
node contains the second cell's node exactly once when the second cell
is strictly lower, and not at all otherwise; in particular
equal-elevation neighbours get no edge in either direction, and each
edge is oriented from the higher to the lower cell. -/
theorem claim_C5_build_graph (rows : List (List Int)) (w h : Nat) :
    ∃ s, build_nodes rows w h = some s ∧
      s.nodes.length = w * h ∧
      (∀ k, k < w * h → (getN s.nodes k).i = k ∧
        (getN s.nodes k).x = k % w ∧ (getN s.nodes k).y = k / w ∧
        (getN s.nodes k).elevation = elevAt rows (k % w) (k / w)) ∧
      (∀ x y x2 y2, x < w → y < h → x2 < w → y2 < h →
        List.count (y2 * w + x2) ((getN s.nodes (y * w + x)).go_down)
          = if orthAdj x y x2 y2 ∧ elevAt rows x2 y2 < elevAt rows x y
            then 1 else 0) := by
  obtain ⟨s, hs, hgood, hec⟩ :=
    buildState_good rows w h (buildEvents rows w h).length
  rw [List.take_length] at hec
  have hbn : build_nodes rows w h = some s := by
    unfold buildState at hs
    rw [List.take_length] at hs
    exact hs
  refine ⟨s, hbn, hgood.len, ?_, ?_⟩
  · intro k hk
    obtain ⟨c1, c2, c3⟩ := hgood.coords k hk
    exact ⟨c1, c2, c3, hgood.elevF k hk⟩
  · intro x y x2 y2 hx hy hx2 hy2
    rw [hec.1 (y * w + x), count_snd_filter]
    exact count_buildEvents rows hx hy hx2 hy2

theorem fold_min_union (s t : Finset Nat) (e : Int) (f : Nat → Int) :
    t.fold min (s.fold min e f) f = (t ∪ s).fold min e f := by
  apply le_antisymm
  · rw [Finset.le_fold_min]
    constructor
    · exact le_trans ((Finset.fold_min_le _).mpr (Or.inl le_rfl))
        ((Finset.fold_min_le _).mpr (Or.inl le_rfl))
    · intro x hx
      rcases Finset.mem_union.mp hx with hx | hx
      · exact (Finset.fold_min_le _).mpr (Or.inr ⟨x, hx, le_rfl⟩)
      · exact le_trans ((Finset.fold_min_le _).mpr (Or.inl le_rfl))
          ((Finset.fold_min_le _).mpr (Or.inr ⟨x, hx, le_rfl⟩))
  · rw [Finset.le_fold_min]
    constructor
    · rw [Finset.le_fold_min]
      refine ⟨(Finset.fold_min_le _).mpr (Or.inl le_rfl), ?_⟩
      intro x hx
      exact (Finset.fold_min_le _).mpr
        (Or.inr ⟨x, Finset.mem_union_right _ hx, le_rfl⟩)
    · intro x hx
      exact (Finset.fold_min_le _).mpr
        (Or.inr ⟨x, Finset.mem_union_left _ hx, le_rfl⟩)

theorem walk_fold (ns : List Node) (start L : Nat) : ∀ t,
    (List.range t).foldl (fun (acc : Int × Finset Nat) lvl =>
        let keep := (acc.2.biUnion (fun k => (getN ns k).go_down.toFinset)).filter
            (fun j => (getN ns j).longest_path = L - (lvl + 1))
        (keep.fold min acc.1 (fun j => (getN ns j).elevation), keep))
      ((getN ns start).elevation, {start})
    = (frontierMin ns start L t, specFrontier ns start L t) := by
  intro t
  induction t with
  | zero =>
    simp [frontierMin, specFrontier, Finset.range_one,
      Finset.singleton_biUnion, Finset.fold_singleton]
  | succ t ih =>
    rw [List.range_succ, List.foldl_append, ih]
    simp only [List.foldl_cons, List.foldl_nil]
    have hF : ((specFrontier ns start L t).biUnion
        (fun k => (getN ns k).go_down.toFinset)).filter
          (fun j => (getN ns j).longest_path = L - (t + 1))
        = specFrontier ns start L (t + 1) := rfl
    rw [hF]
    have hunion : frontierMin ns start L (t + 1)
        = (specFrontier ns start L (t + 1)).fold min
          (frontierMin ns start L t) (fun j => (getN ns j).elevation) := by
      unfold frontierMin
      rw [Finset.range_succ, Finset.biUnion_insert, ← fold_min_union]
    rw [hunion]

theorem walkDrop_eq_specDrop (ns : List Node) (start L : Nat) :
    walkDrop ns start L = specDrop ns start L := by
  show (getN ns start).elevation
      - ((List.range L).foldl (fun (acc : Int × Finset Nat) lvl =>
          let keep := (acc.2.biUnion (fun k => (getN ns k).go_down.toFinset)).filter
              (fun j => (getN ns j).longest_path = L - (lvl + 1))
          (keep.fold min acc.1 (fun j => (getN ns j).elevation), keep))
        ((getN ns start).elevation, {start})).1
    = specDrop ns start L
  rw [walk_fold ns start L L]
  rfl

theorem walkDrop_nonneg (ns : List Node) (start L : Nat) :
    0 ≤ walkDrop ns start L := by
  rw [walkDrop_eq_specDrop]
  unfold specDrop
  have hle : frontierMin ns start L L ≤ (getN ns start).elevation := by
    unfold frontierMin
    exact (Finset.fold_min_le _).mpr (Or.inl le_rfl)
  omega

theorem reportResult_cases (s : SkiMap) :
    reportResult s = none ∨
    ∃ peaks, longest_paths s none = some peaks ∧ peaks.Nonempty ∧
      reportResult s
        = some (s.summits.sup (fun k => (getN s.nodes k).longest_path),
          peaks.fold max 0 (fun k => walkDrop s.nodes k
            (s.summits.sup (fun j => (getN s.nodes j).longest_path)))) := by
  unfold reportResult
  rcases hlp : longest_paths s none with _ | peaks
  · exact Or.inl rfl
  · by_cases hne : peaks.Nonempty
    · refine Or.inr ⟨peaks, rfl, hne, ?_⟩
      show (if peaks.Nonempty then
          some (s.summits.sup (fun k => (getN s.nodes k).longest_path),
            peaks.fold max 0 (fun k => walkDrop s.nodes k
              (s.summits.sup (fun j => (getN s.nodes j).longest_path))))
        else none) = _
      rw [if_pos hne]
    · refine Or.inl ?_
      show (if peaks.Nonempty then
          some (s.summits.sup (fun k => (getN s.nodes k).longest_path),
            peaks.fold max 0 (fun k => walkDrop s.nodes k
              (s.summits.sup (fun j => (getN s.nodes j).longest_path))))
        else none) = none
      rw [if_neg hne]

/-- Claim C8: whenever the reporting phase returns a pair `(L, D)`, the
maximal summits are exactly the peaks returned by the no-target query,
`L` is the global maximum path length over the summit set, the frontier
at level `k+1` of the reconstruction walk is the set of
descent-successors of the previous frontier whose `longest_path` equals
exactly `L - (k+1)`, the walk's vertical drop for each peak equals that
peak's elevation minus the minimum elevation seen across the frontiers
from level 0 through level `L`, and `D` is the maximum such drop over
all maximal summits (each drop is at most `D`, and `D` is attained). -/
theorem claim_C8_frontier_walk (s : SkiMap) (L : Nat) (D : Int)
    (h : reportResult s = some (L, D)) :
    ∃ peaks, longest_paths s none = some peaks ∧ peaks.Nonempty ∧
      L = s.summits.sup (fun k => (getN s.nodes k).longest_path) ∧
      (∀ p k, specFrontier s.nodes p L (k + 1)
        = ((specFrontier s.nodes p L k).biUnion
            (fun j => (getN s.nodes j).go_down.toFinset)).filter
          (fun j => (getN s.nodes j).longest_path = L - (k + 1))) ∧
      (∀ p ∈ peaks, walkDrop s.nodes p L = specDrop s.nodes p L) ∧
      (∀ p ∈ peaks, 0 ≤ specDrop s.nodes p L ∧ specDrop s.nodes p L ≤ D) ∧
      (∃ p ∈ peaks, specDrop s.nodes p L = D) := by
  rcases reportResult_cases s with hnone | ⟨peaks, hlp, hne, heq⟩
  · rw [h] at hnone
    cases hnone
  · rw [h] at heq
    have hinj := Option.some.inj heq
    have hL : L = s.summits.sup (fun k => (getN s.nodes k).longest_path) :=
      congrArg Prod.fst hinj
    have hD : D = peaks.fold max 0 (fun k => walkDrop s.nodes k
        (s.summits.sup (fun j => (getN s.nodes j).longest_path))) :=
      congrArg Prod.snd hinj
    rw [← hL] at hD
    have hbound : ∀ p ∈ peaks, specDrop s.nodes p L ≤ D := by
      intro p hp
      rw [hD, ← walkDrop_eq_specDrop]
      exact (Finset.le_fold_max _).mpr (Or.inr ⟨p, hp, le_rfl⟩)
    have hnonneg : ∀ p, 0 ≤ specDrop s.nodes p L := by
      intro p
      rw [← walkDrop_eq_specDrop]
      exact walkDrop_nonneg s.nodes p L
    refine ⟨peaks, hlp, hne, hL, fun p k => rfl,
      fun p hp => walkDrop_eq_specDrop s.nodes p L,
      fun p hp => ⟨hnonneg p, hbound p hp⟩, ?_⟩
    have hDle : D ≤ 0 ∨ ∃ p ∈ peaks, D ≤ walkDrop s.nodes p L :=
      (Finset.le_fold_max _).mp (le_of_eq hD)
    rcases hDle with hD0 | ⟨p, hp, hDp⟩
    · obtain ⟨p0, hp0⟩ := hne
      have h1 := hbound p0 hp0
      have h2 := hnonneg p0
      exact ⟨p0, hp0, by omega⟩
    · rw [walkDrop_eq_specDrop] at hDp
      exact ⟨p, hp, le_antisymm (hbound p hp) hDp⟩

theorem claim_C8_witness :
    reportResult chainState = some (2, 2) ∧
    (∃ peaks, longest_paths chainState none = some peaks ∧ peaks.Nonempty ∧
      2 = chainState.summits.sup
        (fun k => (getN chainState.nodes k).longest_path) ∧
      (∀ p k, specFrontier chainState.nodes p 2 (k + 1)
        = ((specFrontier chainState.nodes p 2 k).biUnion
            (fun j => (getN chainState.nodes j).go_down.toFinset)).filter
          (fun j => (getN chainState.nodes j).longest_path = 2 - (k + 1))) ∧
      (∀ p ∈ peaks, walkDrop chainState.nodes p 2
        = specDrop chainState.nodes p 2) ∧
      (∀ p ∈ peaks, 0 ≤ specDrop chainState.nodes p 2
        ∧ specDrop chainState.nodes p 2 ≤ 2) ∧
      (∃ p ∈ peaks, specDrop chainState.nodes p 2 = 2)) :=
  ⟨by decide, claim_C8_frontier_walk chainState 2 2 (by decide)⟩
